import Mathlib

/-!
# TextNormalizer

A shallow embedding of `TextNormalizer.cpp` and the properties of its three
rewriting stages.

A `std::string` is a `List Char`, one `Char` per C++ `char`.  Character
classification is the one of the default "C" locale, in which only ASCII
letters are cased, only ASCII letters, digits and the underscore are word
characters, and the white space characters are the space and the codes 9 to 13.

The three `std::regex` patterns of the source are written in a small pattern
language (a sequence of word-boundary assertions and greedy quantified character
classes) that is run by a backtracking matcher, `matchItems`.  The scanning
loop of `std::sregex_iterator` is `regexMatches`, and `std::regex_replace` is
`regex_replace`.
-/

namespace TextNormalizer

/-! ## Characters -/

/-- The call `std::isupper(c)` in the "C" locale. -/
def isupper (c : Char) : Bool := decide (65 ≤ c.toNat) && decide (c.toNat ≤ 90)

/-- The call `std::islower(c)` in the "C" locale. -/
def islower (c : Char) : Bool := decide (97 ≤ c.toNat) && decide (c.toNat ≤ 122)

/-- The call `std::isdigit(c)`. -/
def isdigit (c : Char) : Bool := decide (48 ≤ c.toNat) && decide (c.toNat ≤ 57)

/-- The call `std::isspace(c)` in the "C" locale: the class `\s` of a pattern. -/
def isspace (c : Char) : Bool := c.toNat == 32 || (decide (9 ≤ c.toNat) && decide (c.toNat ≤ 13))

/-- The class `\w` of a pattern: a letter, a digit or the underscore. -/
def isWordChar (c : Char) : Bool := isupper c || islower c || isdigit c || c.toNat == 95

/-- The call `::tolower(c)` in the "C" locale. -/
def tolower (c : Char) : Char := if isupper c then Char.ofNat (c.toNat + 32) else c

/-- The call `std::toupper(c)` in the "C" locale. -/
def toupper (c : Char) : Char := if islower c then Char.ofNat (c.toNat - 32) else c

/-! ## Patterns and the backtracking matcher -/

/-- One item of a pattern: the assertion `\b`, or a character class under a greedy
quantifier `{min,max}` (`max = none` when unbounded).  A single character is a
class with the quantifier `{1,1}`. -/
inductive Item where
  | wordBoundary : Item
  | rep (cls : Char → Bool) (min : Nat) (max : Option Nat) : Item

/-- Whether the character before the position is a word character; there is none
at the start of the subject. -/
def leftIsWord : Option Char → Bool
  | none => false
  | some c => isWordChar c

/-- Whether the character at the position is a word character; there is none at
the end of the subject. -/
def rightIsWord : List Char → Bool
  | [] => false
  | c :: _ => isWordChar c

/-- The assertion `\b`: exactly one side of the position is a word character. -/
def atWordBoundary (prev : Option Char) (s : List Char) : Bool :=
  leftIsWord prev != rightIsWord s

/-- The character before the position reached after consuming `j` characters of `s`. -/
def prevAfter (prev : Option Char) (s : List Char) (j : Nat) : Option Char :=
  match (s.take j).getLast? with
  | some c => some c
  | none => prev

/-- Backtracking over the repetition count of a greedy quantifier: `k` is tried
for `k = hi, hi - 1, ..., lo` and the first success is kept. -/
def firstDown (k : Nat → Option Nat) (lo : Nat) : Nat → Option Nat
  | 0 => if lo = 0 then k 0 else none
  | hi + 1 =>
    if lo ≤ hi + 1 then
      match k (hi + 1) with
      | some n => some n
      | none => firstDown k lo hi
    else none

/-- The backtracking matcher: the number of characters of `s` that the pattern
consumes when it is matched at the head of `s` with `prev` the character
before it, or `none` when it does not match there. -/
def matchItems : List Item → Option Char → List Char → Option Nat
  | [], _, _ => some 0
  | Item.wordBoundary :: rest, prev, s =>
    if atWordBoundary prev s then matchItems rest prev s else none
  | Item.rep cls min max :: rest, prev, s =>
    let avail := (s.takeWhile cls).length
    let hi := match max with
      | some m => Nat.min m avail
      | none => avail
    firstDown (fun j => (matchItems rest (prevAfter prev s j) (s.drop j)).map (· + j)) min hi

/-- The search loop of `std::sregex_iterator`: the matches `(position, length)` in the
subject, left to right and not overlapping.  `pos` is the offset of the head
of the remaining subject, `prev` the character before it and `skip` the
number of characters of the last match still to be stepped over.  A search
starts where the match before it ended, and tries the positions from there
on in turn.  None of the three patterns of the source matches the empty
string (`matchItems_nonempty`), so the extra step that the iterator takes
after an empty match is left out. -/
def regexMatchesFrom (re : List Item) (pos skip : Nat) (prev : Option Char) :
    List Char → List (Nat × Nat)
  | [] => []
  | c :: t =>
    match skip with
    | k + 1 => regexMatchesFrom re (pos + 1) k (some c) t
    | 0 =>
      match matchItems re prev (c :: t) with
      | some n => (pos, n) :: regexMatchesFrom re (pos + 1) (n - 1) (some c) t
      | none => regexMatchesFrom re (pos + 1) 0 (some c) t

/-- The matches that `std::sregex_iterator(input.begin(), input.end(), re)` enumerates. -/
def regexMatches (re : List Item) (input : List Char) : List (Nat × Nat) :=
  regexMatchesFrom re 0 0 none input

/-- The call `input.substr(pos, len)`. -/
def substr (input : List Char) (pos len : Nat) : List Char := (input.drop pos).take len

/-- The loop over the matches shared by both word stages and by `std::regex_replace`:
the text since `lastPos` is copied, the match is rewritten by `f`, and the
text after the last match is copied at the end. -/
def rewriteLoop (input : List Char) (f : List Char → List Char) :
    List (Nat × Nat) → Nat → List Char → List Char
  | [], lastPos, result => result ++ input.drop lastPos
  | (position, length) :: ms, lastPos, result =>
    rewriteLoop input f ms (position + length)
      (result ++ substr input lastPos (position - lastPos) ++ f (substr input position length))

/-- The call `std::regex_replace(input, re, fmt)` for a format without `$`. -/
def regex_replace (input : List Char) (re : List Item) (fmt : List Char) : List Char :=
  rewriteLoop input (fun _ => fmt) (regexMatches re input) 0 []

/-- The pattern `\b\w+\b`. -/
def wordPattern : List Item :=
  [Item.wordBoundary, Item.rep isWordChar 1 none, Item.wordBoundary]

/-- The pattern `\*[^*]*\*`. -/
def asteriskPattern : List Item :=
  [Item.rep (fun c => c == '*') 1 (some 1), Item.rep (fun c => c != '*') 0 none,
    Item.rep (fun c => c == '*') 1 (some 1)]

/-- The pattern `\s{2,}`. -/
def multipleSpacesPattern : List Item := [Item.rep isspace 2 none]

/-! ## The stages -/

/-- The `while` loop of the word normalisation, entered after `current` was
appended: the characters equal to `current` are skipped, and the next other
character starts the next turn of the `for` loop. -/
def skipIdentical (current : Char) : List Char → List Char
  | [] => []
  | d :: t => if d = current then skipIdentical current t else d :: skipIdentical d t

/-- The `for` loop that normalises one word. -/
def normalizeWord : List Char → List Char
  | [] => []
  | current :: t => current :: skipIdentical current t

/-- The function `TextNormalizer::normalizeRepeatedCharacters`. -/
def normalizeRepeatedCharacters (input : List Char) : List Char :=
  if input.isEmpty then input
  else rewriteLoop input normalizeWord (regexMatches wordPattern input) 0 []

/-- The function `TextNormalizer::removeAsterisks`. -/
def removeAsterisks (input : List Char) : List Char :=
  if input.isEmpty then input
  else
    let result := regex_replace input asteriskPattern []
    regex_replace result multipleSpacesPattern [' ']

/-- The scanning loop of `hasMixedCasing`, with the two flags as arguments. -/
def hasMixedCasingLoop : Bool → Bool → List Char → Bool
  | _, _, [] => false
  | hasUpper, hasLower, c :: t =>
    let hasUpper1 := if isupper c then true else hasUpper
    let hasLower1 := if isupper c then hasLower else if islower c then true else hasLower
    if hasUpper1 && hasLower1 then true else hasMixedCasingLoop hasUpper1 hasLower1 t

/-- The function `TextNormalizer::hasMixedCasing`. -/
def hasMixedCasing (word : List Char) : Bool :=
  if word.length ≤ 1 then false else hasMixedCasingLoop false false word

/-- The rewriting of one word in `normalizeCasing`. -/
def normalizeWordCasing (word : List Char) : List Char :=
  if hasMixedCasing word then
    let normalized := word.map tolower
    match word, normalized with
    | w0 :: _, n0 :: rest => if isupper w0 then toupper n0 :: rest else normalized
    | _, _ => normalized
  else word

/-- The function `TextNormalizer::normalizeCasing`. -/
def normalizeCasing (input : List Char) : List Char :=
  if input.isEmpty then input
  else rewriteLoop input normalizeWordCasing (regexMatches wordPattern input) 0 []

/-- The function `TextNormalizer::normalizeText`. -/
def normalizeText (input : List Char) : List Char :=
  if input.isEmpty then input
  else
    let result := input
    let result := normalizeRepeatedCharacters result
    let result := removeAsterisks result
    let result := normalizeCasing result
    result

/-! ## The contracts, in the words of the specification -/

/-- The contract of the repetition stage: the text without the characters that are
word characters equal to the character immediately before them in the text;
`prev` is the character before the head. -/
def deleteRepeatedWordChars (prev : Option Char) : List Char → List Char
  | [] => []
  | c :: t =>
    if isWordChar c = true ∧ prev = some c then deleteRepeatedWordChars (some c) t
    else c :: deleteRepeatedWordChars (some c) t

/-- A piece of a text: a word, or a character outside words. -/
inductive Segment where
  | word (w : List Char) : Segment
  | other (c : Char) : Segment

/-- The text cut into its words, the maximal runs of word characters, and the
characters outside words, in the order of the text. -/
def segments : List Char → List Segment
  | [] => []
  | c :: t =>
    if isWordChar c = true then
      Segment.word (c :: t.takeWhile isWordChar) :: segments (t.dropWhile isWordChar)
    else Segment.other c :: segments t
termination_by s => s.length
decreasing_by
  all_goals simp_wf
  exact Nat.lt_succ_of_le (List.dropWhile_sublist isWordChar).length_le

/-- A word has mixed casing when it contains both an uppercase and a lowercase letter. -/
def isMixedCase (w : List Char) : Bool := w.any isupper && w.any islower

/-- The all-lowercase form of a word, with its first character uppercased if and
only if the first character of the word was an uppercase letter. -/
def lowerKeepingCapital : List Char → List Char
  | [] => []
  | c :: t => (if isupper c = true then toupper (tolower c) else tolower c) :: t.map tolower

/-- The contract of the casing stage on one piece of the text. -/
def casingOfSegment : Segment → List Char
  | Segment.word w => if isMixedCase w = true then lowerKeepingCapital w else w
  | Segment.other c => [c]

/-- The contract of the casing stage: each word with mixed casing is replaced, every
other word and every character outside words is copied. -/
def casingContract (x : List Char) : List Char :=
  ((segments x).map casingOfSegment).flatten

/-- The text outside the annotations, from the pieces `p0, p1, ..., pk` that the
asterisks of a text `p0 * p1 * ... * pk` cut it into.  The asterisks are paired
from the left: the first and the second enclose `p1`, the third and the fourth
enclose `p3`, and so on; a pair goes with the piece it encloses.  With an odd
number of asterisks the last one has no partner, and stays with the piece
after it. -/
def outsidePairs : List (List Char) → List Char
  | [] => []
  | [p] => p
  | [p, q] => p ++ '*' :: q
  | p :: _ :: r :: rest => p ++ outsidePairs (r :: rest)

/-- The contract of the white space replacement: every maximal run of two or more
white space characters is replaced by one space, and every other character is
copied. -/
def collapseSpaceRuns : List Char → List Char
  | [] => []
  | c :: t =>
    if isspace c = true then
      (if 2 ≤ (c :: t.takeWhile isspace).length then [' '] else c :: t.takeWhile isspace)
        ++ collapseSpaceRuns (t.dropWhile isspace)
    else c :: collapseSpaceRuns t
termination_by s => s.length
decreasing_by
  all_goals simp_wf
  exact Nat.lt_succ_of_le (List.dropWhile_sublist isspace).length_le

/-- The contract of the annotation stage: the annotations, paired from the left, are
removed, and then the runs of white space are collapsed. -/
def annotationContract (x : List Char) : List Char :=
  collapseSpaceRuns (outsidePairs (x.splitOn '*'))

/-! ## A one-pass form of the rewriting loop -/

/-- The text that `rewriteLoop` builds from the matches of `regexMatchesFrom`, computed
in one pass over the subject: outside a match a character is copied, at the
start of a match the rewritten match is emitted, and the `skip` characters
left of a match are dropped. -/
def scanRewrite (re : List Item) (f : List Char → List Char) :
    Nat → Option Char → List Char → List Char
  | _, _, [] => []
  | k + 1, _, c :: t => scanRewrite re f k (some c) t
  | 0, prev, c :: t =>
    match matchItems re prev (c :: t) with
    | some 0 => f [] ++ c :: scanRewrite re f 0 (some c) t
    | some (n + 1) => f ((c :: t).take (n + 1)) ++ scanRewrite re f n (some c) t
    | none => c :: scanRewrite re f 0 (some c) t

/-! ## Lemmas on the rewriting loop -/

theorem substr_snoc (pre t : List Char) (c : Char) (lastPos : Nat) (h : lastPos ≤ pre.length) :
    substr (pre ++ c :: t) lastPos (pre.length + 1 - lastPos)
      = substr (pre ++ c :: t) lastPos (pre.length - lastPos) ++ [c] := by
  unfold substr
  rw [List.drop_append_of_le_length h]
  have h3 : (pre.drop lastPos).length = pre.length - lastPos := by simp
  have h4 : pre.length + 1 - lastPos = (pre.drop lastPos).length + 1 := by omega
  rw [h4, ← h3, List.take_left, List.take_append_eq_append_take]
  simp

theorem rewriteLoop_regexMatchesFrom (re : List Item) (f : List Char → List Char) :
    ∀ (s pre : List Char) (skip : Nat) (prev : Option Char) (lastPos : Nat) (result : List Char),
      (skip = 0 → lastPos ≤ pre.length) → (0 < skip → lastPos = pre.length + skip) →
      rewriteLoop (pre ++ s) f (regexMatchesFrom re pre.length skip prev s) lastPos result
        = result ++ substr (pre ++ s) lastPos (pre.length - lastPos) ++ scanRewrite re f skip prev s := by
  intro s
  induction s with
  | nil =>
    intro pre skip prev lastPos result h0 h1
    simp only [regexMatchesFrom, rewriteLoop, scanRewrite, List.append_nil, substr]
    rcases Nat.eq_zero_or_pos skip with hs | hs
    · have := h0 hs
      rw [List.take_of_length_le (by simp)]
    · have := h1 hs
      rw [List.drop_of_length_le (by omega)]
      simp
  | cons c t ih =>
    intro pre skip prev lastPos result h0 h1
    have hpre : pre ++ c :: t = (pre ++ [c]) ++ t := by simp
    have hlen : (pre ++ [c]).length = pre.length + 1 := by simp
    cases skip with
    | succ k =>
      have hl := h1 (Nat.succ_pos k)
      simp only [regexMatchesFrom, scanRewrite]
      rw [hpre, ← hlen, ih (pre ++ [c]) k (some c) lastPos result (by intro hk; omega)
        (by intro hk; omega)]
      have e1 : (pre ++ [c]).length - lastPos = 0 := by omega
      have e2 : pre.length - lastPos = 0 := by omega
      rw [e1, e2]
    | zero =>
      have hl := h0 rfl
      simp only [regexMatchesFrom, scanRewrite]
      cases hm : matchItems re prev (c :: t) with
      | none =>
        simp only
        rw [hpre, ← hlen, ih (pre ++ [c]) 0 (some c) lastPos result (by intro _; omega)
          (by intro hk; omega)]
        rw [hlen, ← hpre, substr_snoc pre t c lastPos hl]
        simp
      | some n =>
        have hdrop : substr (pre ++ c :: t) pre.length n = (c :: t).take n := by
          simp [substr]
        cases n with
        | zero =>
          simp only [rewriteLoop, Nat.add_zero, Nat.zero_sub]
          rw [hpre, ← hlen, ih (pre ++ [c]) 0 (some c) pre.length _ (by intro _; omega)
            (by intro hk; omega)]
          rw [← hpre, hdrop, hlen]
          have e3 : pre.length + 1 - pre.length = 1 := by omega
          rw [e3]
          simp [substr]
        | succ n =>
          simp only [rewriteLoop, Nat.add_sub_cancel]
          rw [hpre, ← hlen, ih (pre ++ [c]) n (some c) (pre.length + (n + 1)) _
            (by intro hk; omega) (by intro hk; omega)]
          rw [← hpre, hdrop, hlen]
          have e3 : pre.length + 1 - (pre.length + (n + 1)) = 0 := by omega
          rw [e3]
          simp [substr]

/-- The rewriting loop run on all the matches of a pattern is the one-pass scan. -/
theorem rewriteLoop_regexMatches (re : List Item) (f : List Char → List Char) (input : List Char) :
    rewriteLoop input f (regexMatches re input) 0 [] = scanRewrite re f 0 none input := by
  have h := rewriteLoop_regexMatchesFrom re f input [] 0 none 0 [] (by intro _; simp) (by intro h; omega)
  simpa [regexMatches, substr] using h

/-! ## Lemmas on the matcher -/

theorem firstDown_none (k : Nat → Option Nat) (lo : Nat) :
    ∀ hi, (∀ j, lo ≤ j → j ≤ hi → k j = none) → firstDown k lo hi = none := by
  intro hi
  induction hi with
  | zero =>
    intro h
    unfold firstDown
    split
    · exact h 0 (by omega) (by omega)
    · rfl
  | succ hi ih =>
    intro h
    unfold firstDown
    split
    · rw [h (hi + 1) (by assumption) (by omega)]
      exact ih (fun j h1 h2 => h j h1 (by omega))
    · rfl

theorem firstDown_top (k : Nat → Option Nat) (lo hi n : Nat) (h : lo ≤ hi) (hk : k hi = some n) :
    firstDown k lo hi = some n := by
  cases hi with
  | zero =>
    unfold firstDown
    rw [if_pos (by omega), hk]
  | succ hi =>
    unfold firstDown
    rw [if_pos h, hk]

theorem firstDown_top_none (k : Nat → Option Nat) (lo hi : Nat) (hk : k (hi + 1) = none) :
    firstDown k lo (hi + 1) = firstDown k lo hi := by
  rw [firstDown]
  split
  · rw [hk]
  · rename_i h
    exact (firstDown_none k lo hi (fun j h1 h2 => by omega)).symm

theorem take_length_takeWhile (p : Char → Bool) (s : List Char) :
    s.take (s.takeWhile p).length = s.takeWhile p := by
  induction s with
  | nil => rfl
  | cons c t ih =>
    by_cases hc : p c
    · simp [List.takeWhile_cons, hc, ih]
    · simp [List.takeWhile_cons, hc]

theorem drop_length_takeWhile (p : Char → Bool) (s : List Char) :
    s.drop (s.takeWhile p).length = s.dropWhile p := by
  induction s with
  | nil => rfl
  | cons c t ih =>
    by_cases hc : p c
    · simp [List.takeWhile_cons, List.dropWhile_cons, hc, ih]
    · simp [List.takeWhile_cons, List.dropWhile_cons, hc]

theorem head_dropWhile_not (p : Char → Bool) (s : List Char) (c : Char) (t : List Char)
    (h : s.dropWhile p = c :: t) : p c = false := by
  induction s with
  | nil => simp at h
  | cons d u ih =>
    by_cases hd : p d
    · rw [List.dropWhile_cons, if_pos hd] at h
      exact ih h
    · rw [List.dropWhile_cons, if_neg hd] at h
      cases h
      simpa using hd

theorem getLast?_takeWhile (p : Char → Bool) (s : List Char) (c : Char)
    (h : (s.takeWhile p).getLast? = some c) : p c = true := by
  have hm : c ∈ s.takeWhile p := List.mem_of_getLast?_eq_some h
  exact (List.mem_takeWhile_imp hm)

theorem rightIsWord_dropWhile (s : List Char) : rightIsWord (s.dropWhile isWordChar) = false := by
  cases h : s.dropWhile isWordChar with
  | nil => rfl
  | cons c t => exact head_dropWhile_not isWordChar s c t h

/-- What `\b\w+\b` matches at a position: the whole run of word characters that
starts there, when the position is not inside or after a word. -/
theorem matchItems_wordPattern (prev : Option Char) (s : List Char) :
    matchItems wordPattern prev s
      = if leftIsWord prev = false ∧ rightIsWord s = true then
          some (s.takeWhile isWordChar).length else none := by
  unfold wordPattern
  simp only [matchItems]
  by_cases hr : rightIsWord s = true
  · by_cases hl : leftIsWord prev = true
    · simp [atWordBoundary, hl, hr]
    · have hl0 : leftIsWord prev = false := by simpa using hl
      rw [if_pos (by simp [atWordBoundary, hl0, hr]), if_pos ⟨hl0, hr⟩]
      obtain ⟨c, t, rfl⟩ : ∃ c t, s = c :: t := by
        cases s with
        | nil => simp [rightIsWord] at hr
        | cons c t => exact ⟨c, t, rfl⟩
      have hc : isWordChar c = true := hr
      have hpos : 1 ≤ ((c :: t).takeWhile isWordChar).length := by
        simp [List.takeWhile_cons, hc]
      apply firstDown_top _ _ _ _ hpos
      have hlast : ∃ d, ((c :: t).takeWhile isWordChar).getLast? = some d := by
        cases hq : ((c :: t).takeWhile isWordChar).getLast? with
        | none =>
          rw [List.getLast?_eq_none_iff] at hq
          rw [hq] at hpos
          simp at hpos
        | some d => exact ⟨d, rfl⟩
      obtain ⟨d, hd⟩ := hlast
      have hdw : isWordChar d = true := getLast?_takeWhile isWordChar _ d hd
      simp only [prevAfter, take_length_takeWhile, drop_length_takeWhile, hd]
      simp [atWordBoundary, leftIsWord, hdw, rightIsWord_dropWhile]
  · have hr0 : rightIsWord s = false := by simpa using hr
    have hnil : s.takeWhile isWordChar = [] := by
      cases s with
      | nil => rfl
      | cons c t =>
        have hc : isWordChar c = false := hr0
        simp [List.takeWhile_cons, hc]
    rw [hnil]
    simp [firstDown, hr0]

theorem firstDown_eq_top (k : Nat → Option Nat) (lo hi : Nat) (h : lo ≤ hi)
    (hk : ∀ j, lo ≤ j → j < hi → k j = none) : firstDown k lo hi = k hi := by
  cases hq : k hi with
  | some n => exact firstDown_top k lo hi n h hq
  | none =>
    apply firstDown_none
    intro j h1 h2
    rcases Nat.lt_or_ge j hi with h3 | h3
    · exact hk j h1 h3
    · have : j = hi := by omega
      rw [this, hq]

/-- A single character of a pattern, as a class under the quantifier `{1,1}`. -/
theorem matchItems_single (cls : Char → Bool) (rest : List Item) (prev : Option Char)
    (s : List Char) :
    matchItems (Item.rep cls 1 (some 1) :: rest) prev s
      = match s with
        | [] => none
        | c :: t => if cls c = true then (matchItems rest (some c) t).map (· + 1) else none := by
  simp only [matchItems]
  cases s with
  | nil => simp [firstDown]
  | cons c t =>
    by_cases hc : cls c = true
    · have h1 : Nat.min 1 ((c :: t).takeWhile cls).length = 1 := by
        simp [List.takeWhile_cons, hc]
      rw [h1]
      simp only [if_pos hc]
      rw [firstDown_eq_top _ 1 1 (le_refl 1) (fun j h1 h2 => by omega)]
      simp [prevAfter]
    · have h1 : Nat.min 1 ((c :: t).takeWhile cls).length = 0 := by
        simp [List.takeWhile_cons, hc]
      rw [h1]
      simp [firstDown, hc]

theorem drop_lt_takeWhile (p : Char → Bool) :
    ∀ (s : List Char) (j : Nat), j < (s.takeWhile p).length →
      ∃ c u, s.drop j = c :: u ∧ p c = true := by
  intro s
  induction s with
  | nil => intro j h; simp at h
  | cons d t ih =>
    intro j h
    by_cases hd : p d = true
    · cases j with
      | zero => exact ⟨d, t, rfl, hd⟩
      | succ j =>
        rw [List.takeWhile_cons, if_pos hd] at h
        simp only [List.length_cons] at h
        obtain ⟨c, u, h1, h2⟩ := ih j (by omega)
        exact ⟨c, u, by simpa using h1, h2⟩
    · rw [List.takeWhile_cons, if_neg hd] at h
      simp at h

/-- What `\*[^*]*\*` matches at a position: from an asterisk up to the next one. -/
theorem matchItems_asteriskPattern (prev : Option Char) (s : List Char) :
    matchItems asteriskPattern prev s
      = match s with
        | [] => none
        | c :: t =>
          if c = '*' ∧ t.dropWhile (fun c => c != '*') ≠ [] then
            some ((t.takeWhile (fun c => c != '*')).length + 2)
          else none := by
  unfold asteriskPattern
  rw [matchItems_single]
  cases s with
  | nil => rfl
  | cons c t =>
    simp only
    by_cases hc : c = '*'
    · subst hc
      simp only [beq_self_eq_true, if_true, true_and]
      simp only [matchItems]
      rw [firstDown_eq_top _ 0 _ (Nat.zero_le _)]
      · simp only [drop_length_takeWhile]
        have hm := matchItems_single (fun c => c == '*') [] (prevAfter (some '*') t
          (t.takeWhile (fun c => c != '*')).length) (t.dropWhile (fun c => c != '*'))
        simp only [matchItems] at hm
        rw [hm]
        cases hq : t.dropWhile (fun c => c != '*') with
        | nil => simp
        | cons d u =>
          have hd := head_dropWhile_not _ t d u hq
          have hd1 : d = '*' := by simpa using hd
          subst hd1
          simp [matchItems]
          omega
      · intro j _ hj
        obtain ⟨d, u, h1, h2⟩ := drop_lt_takeWhile _ t j hj
        have hm := matchItems_single (fun c => c == '*') [] (prevAfter (some '*') t j) (t.drop j)
        simp only [matchItems] at hm
        rw [hm, h1]
        have h3 : (d == '*') = false := by simpa using h2
        simp [h3]
    · have h3 : (c == '*') = false := by simpa using hc
      simp [h3, hc]

/-- What `\s{2,}` matches at a position: the whole run of white space that starts
there, when it has two characters or more. -/
theorem matchItems_multipleSpacesPattern (prev : Option Char) (s : List Char) :
    matchItems multipleSpacesPattern prev s
      = if 2 ≤ (s.takeWhile isspace).length then some (s.takeWhile isspace).length else none := by
  unfold multipleSpacesPattern
  simp only [matchItems]
  by_cases h : 2 ≤ (s.takeWhile isspace).length
  · rw [if_pos h]
    apply firstDown_top _ _ _ _ h
    simp
  · rw [if_neg h]
    apply firstDown_none
    intro j h1 h2
    omega

/-- The three patterns of the source match no empty string. -/
theorem matchItems_nonempty (re : List Item)
    (hre : re = wordPattern ∨ re = asteriskPattern ∨ re = multipleSpacesPattern)
    (prev : Option Char) (s : List Char) (n : Nat) (h : matchItems re prev s = some n) :
    1 ≤ n := by
  rcases hre with rfl | rfl | rfl
  · rw [matchItems_wordPattern] at h
    split at h
    · rename_i hc
      cases s with
      | nil => simp [rightIsWord] at hc
      | cons c t =>
        have hw : isWordChar c = true := hc.2
        rw [← Option.some.inj h]
        simp [List.takeWhile_cons, hw]
    · cases h
  · rw [matchItems_asteriskPattern] at h
    cases s with
    | nil => cases h
    | cons c t =>
      simp only at h
      split at h
      · rw [← Option.some.inj h]
        omega
      · cases h
  · rw [matchItems_multipleSpacesPattern] at h
    split at h
    · rw [← Option.some.inj h]
      omega
    · cases h

/-! ## Lemmas on the one-pass scan -/

theorem prevAfter_zero (prev : Option Char) (s : List Char) : prevAfter prev s 0 = prev := by
  simp [prevAfter]

theorem prevAfter_succ (prev : Option Char) (c : Char) (t : List Char) (k : Nat) :
    prevAfter prev (c :: t) (k + 1) = prevAfter (some c) t k := by
  unfold prevAfter
  rw [List.take_succ_cons]
  cases h : t.take k with
  | nil => simp
  | cons d u =>
    rw [List.getLast?_cons_cons]
    cases hq : (d :: u).getLast? with
    | none => simp at hq
    | some e => rfl

/-- Stepping over the rest of a match leads to the scan from its end. -/
theorem scanRewrite_skip (re : List Item) (f : List Char → List Char) :
    ∀ (s : List Char) (k : Nat) (prev : Option Char),
      scanRewrite re f k prev s = scanRewrite re f 0 (prevAfter prev s k) (s.drop k) := by
  intro s
  induction s with
  | nil => intro k prev; cases k <;> simp [scanRewrite]
  | cons c t ih =>
    intro k prev
    cases k with
    | zero => simp [prevAfter_zero]
    | succ k => rw [scanRewrite, ih k (some c), prevAfter_succ, List.drop_succ_cons]

/-- The scan with `\b\w+\b` does not depend on the character before the position,
unless the position is inside a word. -/
theorem scanRewrite_word_prev (f : List Char → List Char) (prev : Option Char) (s : List Char)
    (h : leftIsWord prev = true → rightIsWord s = false) :
    scanRewrite wordPattern f 0 prev s = scanRewrite wordPattern f 0 none s := by
  cases s with
  | nil => simp [scanRewrite]
  | cons c t =>
    have hm : matchItems wordPattern prev (c :: t) = matchItems wordPattern none (c :: t) := by
      rw [matchItems_wordPattern, matchItems_wordPattern]
      by_cases hr : rightIsWord (c :: t) = true
      · have hl : leftIsWord prev = false := by
          cases hq : leftIsWord prev with
          | false => rfl
          | true => rw [h hq] at hr; cases hr
        rw [hl]
        simp [hr, leftIsWord]
      · simp [hr]
    simp only [scanRewrite, hm]

theorem scanRewrite_word_nil (f : List Char → List Char) :
    scanRewrite wordPattern f 0 none [] = [] := rfl

/-- A character outside words is copied. -/
theorem scanRewrite_word_other (f : List Char → List Char) (c : Char) (t : List Char)
    (hc : isWordChar c = false) :
    scanRewrite wordPattern f 0 none (c :: t) = c :: scanRewrite wordPattern f 0 none t := by
  have hm : matchItems wordPattern none (c :: t) = none := by
    rw [matchItems_wordPattern]
    simp [rightIsWord, hc]
  simp only [scanRewrite, hm]
  rw [scanRewrite_word_prev f (some c) t (by simp [leftIsWord, hc])]

/-- At the start of a word the whole word is rewritten, and the scan goes on after it. -/
theorem scanRewrite_word_word (f : List Char → List Char) (c : Char) (t : List Char)
    (hc : isWordChar c = true) :
    scanRewrite wordPattern f 0 none (c :: t)
      = f (c :: t.takeWhile isWordChar) ++ scanRewrite wordPattern f 0 none (t.dropWhile isWordChar) := by
  have hm : matchItems wordPattern none (c :: t) = some ((t.takeWhile isWordChar).length + 1) := by
    rw [matchItems_wordPattern]
    simp [rightIsWord, leftIsWord, hc, List.takeWhile_cons]
  simp only [scanRewrite, hm]
  rw [scanRewrite_skip, drop_length_takeWhile]
  have e : (c :: t).take ((t.takeWhile isWordChar).length + 1) = c :: t.takeWhile isWordChar := by
    rw [List.take_succ_cons, take_length_takeWhile]
  rw [e, scanRewrite_word_prev f _ _ (fun _ => rightIsWord_dropWhile t)]

/-! ## The repetition stage -/

theorem normalizeRepeatedCharacters_eq_scan (input : List Char) :
    normalizeRepeatedCharacters input = scanRewrite wordPattern normalizeWord 0 none input := by
  unfold normalizeRepeatedCharacters
  cases input with
  | nil => rfl
  | cons c t => simp [rewriteLoop_regexMatches]

theorem deleteRepeatedWordChars_run :
    ∀ (w : List Char) (p : Char) (r : List Char), (∀ x ∈ w, isWordChar x = true) →
      deleteRepeatedWordChars (some p) (w ++ r)
        = skipIdentical p w ++ deleteRepeatedWordChars (some (w.getLastD p)) r := by
  intro w
  induction w with
  | nil => intro p r _; simp [skipIdentical]
  | cons d u ih =>
    intro p r hw
    have hd : isWordChar d = true := hw d (by simp)
    have hu : ∀ x ∈ u, isWordChar x = true := fun x hx => hw x (by simp [hx])
    simp only [List.cons_append, deleteRepeatedWordChars, skipIdentical, hd, true_and]
    have hlast : (d :: u).getLastD p = u.getLastD d := List.getLastD_cons p d u
    rw [hlast]
    by_cases hdp : d = p
    · subst hdp
      simp [ih d r hu]
    · have hne : ¬ (some p = some d) := by
        intro h
        exact hdp (Option.some.inj h).symm
      simp [hdp, hne, ih d r hu]

theorem deleteRepeatedWordChars_eq_scan :
    ∀ (n : Nat) (s : List Char) (prev : Option Char), s.length ≤ n →
      (leftIsWord prev = false ∨ rightIsWord s = false) →
      deleteRepeatedWordChars prev s = scanRewrite wordPattern normalizeWord 0 none s := by
  intro n
  induction n with
  | zero =>
    intro s prev hn _
    have : s = [] := List.eq_nil_of_length_eq_zero (by omega)
    subst this
    rfl
  | succ n ih =>
    intro s prev hn hinv
    cases s with
    | nil => rfl
    | cons c t =>
      have ht : t.length ≤ n := by simpa using hn
      by_cases hc : isWordChar c = true
      · have hl : leftIsWord prev = false := by
          rcases hinv with h | h
          · exact h
          · rw [rightIsWord, hc] at h; cases h
        have hne : ¬ (prev = some c) := by
          intro h
          rw [h, leftIsWord, hc] at hl
          cases hl
        rw [scanRewrite_word_word _ c t hc]
        have hsplit : t = t.takeWhile isWordChar ++ t.dropWhile isWordChar :=
          (List.takeWhile_append_dropWhile isWordChar t).symm
        have hlen : (t.dropWhile isWordChar).length ≤ n := by
          have h1 : (t.takeWhile isWordChar ++ t.dropWhile isWordChar).length = t.length := by
            rw [← hsplit]
          rw [List.length_append] at h1
          omega
        rw [← ih (t.dropWhile isWordChar) (some ((t.takeWhile isWordChar).getLastD c)) hlen
          (Or.inr (rightIsWord_dropWhile t))]
        rw [deleteRepeatedWordChars]
        rw [if_neg (fun h => hne h.2)]
        conv_lhs => rw [hsplit]
        rw [deleteRepeatedWordChars_run _ c _ (fun x hx => List.mem_takeWhile_imp hx)]
        rfl
      · have hc0 : isWordChar c = false := by simpa using hc
        rw [scanRewrite_word_other _ c t hc0, deleteRepeatedWordChars]
        rw [if_neg (fun h => hc h.1)]
        rw [ih t (some c) ht (Or.inl (by simp [leftIsWord, hc0]))]

/-! ## The annotation stage -/

/-- The scan with a pattern without `\b` does not depend on the character before
the position. -/
theorem scanRewrite_prev (re : List Item) (f : List Char → List Char)
    (h : ∀ p q s, matchItems re p s = matchItems re q s) (k : Nat) (p q : Option Char)
    (s : List Char) : scanRewrite re f k p s = scanRewrite re f k q s := by
  cases s with
  | nil => simp [scanRewrite]
  | cons c t =>
    cases k with
    | succ k => simp only [scanRewrite]
    | zero => simp only [scanRewrite, h p q]

theorem matchItems_asteriskPattern_prev (p q : Option Char) (s : List Char) :
    matchItems asteriskPattern p s = matchItems asteriskPattern q s := by
  rw [matchItems_asteriskPattern, matchItems_asteriskPattern]

theorem matchItems_multipleSpacesPattern_prev (p q : Option Char) (s : List Char) :
    matchItems multipleSpacesPattern p s = matchItems multipleSpacesPattern q s := by
  rw [matchItems_multipleSpacesPattern, matchItems_multipleSpacesPattern]

theorem regex_replace_eq_scan (input : List Char) (re : List Item) (fmt : List Char) :
    regex_replace input re fmt = scanRewrite re (fun _ => fmt) 0 none input := by
  unfold regex_replace
  exact rewriteLoop_regexMatches re _ input

theorem removeAsterisks_eq_scan (input : List Char) :
    removeAsterisks input
      = scanRewrite multipleSpacesPattern (fun _ => [' ']) 0 none
          (scanRewrite asteriskPattern (fun _ => []) 0 none input) := by
  unfold removeAsterisks
  cases input with
  | nil => rfl
  | cons c t => simp [regex_replace_eq_scan]

/-- A character other than an asterisk is copied by the first replacement. -/
theorem scanAsterisk_other (c : Char) (t : List Char) (hc : c ≠ '*') :
    scanRewrite asteriskPattern (fun _ => []) 0 none (c :: t)
      = c :: scanRewrite asteriskPattern (fun _ => []) 0 none t := by
  have hm : matchItems asteriskPattern none (c :: t) = none := by
    rw [matchItems_asteriskPattern]
    simp [hc]
  simp only [scanRewrite, hm]
  rw [scanRewrite_prev _ _ matchItems_asteriskPattern_prev 0 (some c) none]

/-- An asterisk with no asterisk after it is copied by the first replacement. -/
theorem scanAsterisk_open (t : List Char) (ht : t.dropWhile (fun c => c != '*') = []) :
    scanRewrite asteriskPattern (fun _ => []) 0 none ('*' :: t)
      = '*' :: scanRewrite asteriskPattern (fun _ => []) 0 none t := by
  have hm : matchItems asteriskPattern none ('*' :: t) = none := by
    rw [matchItems_asteriskPattern]
    simp [ht]
  simp only [scanRewrite, hm]
  rw [scanRewrite_prev _ _ matchItems_asteriskPattern_prev 0 (some '*') none]

/-- An asterisk with an asterisk after it is removed with the text up to the next
asterisk, and the scan goes on after that one. -/
theorem scanAsterisk_pair (t u : List Char) (ht : t.dropWhile (fun c => c != '*') = '*' :: u) :
    scanRewrite asteriskPattern (fun _ => []) 0 none ('*' :: t)
      = scanRewrite asteriskPattern (fun _ => []) 0 none u := by
  have hm : matchItems asteriskPattern none ('*' :: t)
      = some ((t.takeWhile (fun c => c != '*')).length + 1 + 1) := by
    rw [matchItems_asteriskPattern]
    simp [ht]
  simp only [scanRewrite, hm, List.nil_append]
  rw [scanRewrite_skip, ← List.drop_drop, drop_length_takeWhile, ht]
  simp only [List.drop_succ_cons, List.drop_zero]
  exact scanRewrite_prev _ _ matchItems_asteriskPattern_prev 0 _ none u

/-- Text without an asterisk is copied by the first replacement. -/
theorem scanAsterisk_append (a r : List Char) (ha : '*' ∉ a) :
    scanRewrite asteriskPattern (fun _ => []) 0 none (a ++ r)
      = a ++ scanRewrite asteriskPattern (fun _ => []) 0 none r := by
  induction a with
  | nil => rfl
  | cons c t ih =>
    have hc : c ≠ '*' := fun h => ha (by simp [h])
    have ht : '*' ∉ t := fun h => ha (by simp [h])
    rw [List.cons_append, scanAsterisk_other _ _ hc, ih ht, List.cons_append]

theorem scanAsterisk_id (a : List Char) (ha : '*' ∉ a) :
    scanRewrite asteriskPattern (fun _ => []) 0 none a = a := by
  have h := scanAsterisk_append a [] ha
  simpa [scanRewrite] using h

theorem dropWhile_not_asterisk_append (m r : List Char) (hm : '*' ∉ m) :
    (m ++ '*' :: r).dropWhile (fun c => c != '*') = '*' :: r := by
  induction m with
  | nil => simp [List.dropWhile_cons]
  | cons c t ih =>
    have hc : c ≠ '*' := fun h => hm (by simp [h])
    have ht : '*' ∉ t := fun h => hm (by simp [h])
    rw [List.cons_append, List.dropWhile_cons, if_pos (by simpa using hc), ih ht]

/-- Without two adjacent white space characters the second replacement copies the text. -/
theorem scanSpaces_id (x : List Char)
    (hx : List.Chain' (fun c d => ¬ (isspace c = true ∧ isspace d = true)) x) :
    scanRewrite multipleSpacesPattern (fun _ => [' ']) 0 none x = x := by
  induction x with
  | nil => rfl
  | cons c t ih =>
    have hlen : ¬ (2 ≤ ((c :: t).takeWhile isspace).length) := by
      by_cases hc : isspace c = true
      · cases t with
        | nil => simp [List.takeWhile_cons, hc]
        | cons d u =>
          have hcd := (List.chain'_cons.1 hx).1
          have hd : ¬ (isspace d = true) := fun h => hcd ⟨hc, h⟩
          simp [List.takeWhile_cons, hc, hd]
      · simp [List.takeWhile_cons, hc]
    have hm : matchItems multipleSpacesPattern none (c :: t) = none := by
      rw [matchItems_multipleSpacesPattern, if_neg hlen]
    simp only [scanRewrite, hm]
    rw [scanRewrite_prev _ _ matchItems_multipleSpacesPattern_prev 0 (some c) none, ih hx.tail]

/-- A position where no run of two white space characters starts is copied by the
second replacement. -/
theorem scanSpaces_copy (c : Char) (t : List Char)
    (h : ¬ (2 ≤ ((c :: t).takeWhile isspace).length)) :
    scanRewrite multipleSpacesPattern (fun _ => [' ']) 0 none (c :: t)
      = c :: scanRewrite multipleSpacesPattern (fun _ => [' ']) 0 none t := by
  have hm : matchItems multipleSpacesPattern none (c :: t) = none := by
    rw [matchItems_multipleSpacesPattern, if_neg h]
  simp only [scanRewrite, hm]
  rw [scanRewrite_prev _ _ matchItems_multipleSpacesPattern_prev 0 (some c) none]

/-- A run of two or more white space characters is replaced by one space, and the
scan goes on after the run. -/
theorem scanSpaces_run (c : Char) (t : List Char)
    (h : 2 ≤ ((c :: t).takeWhile isspace).length) :
    scanRewrite multipleSpacesPattern (fun _ => [' ']) 0 none (c :: t)
      = ' ' :: scanRewrite multipleSpacesPattern (fun _ => [' ']) 0 none
          ((c :: t).dropWhile isspace) := by
  obtain ⟨m, hm⟩ : ∃ m, ((c :: t).takeWhile isspace).length = m + 1 :=
    ⟨((c :: t).takeWhile isspace).length - 1, by omega⟩
  have hmatch : matchItems multipleSpacesPattern none (c :: t) = some (m + 1) := by
    rw [matchItems_multipleSpacesPattern, if_pos h, hm]
  simp only [scanRewrite, hmatch]
  rw [scanRewrite_skip, ← List.drop_succ_cons (a := c), ← hm, drop_length_takeWhile]
  rw [scanRewrite_prev _ _ matchItems_multipleSpacesPattern_prev 0 _ none]
  rfl

theorem length_scanSpaces_le :
    ∀ (n : Nat) (s : List Char), s.length ≤ n →
      (scanRewrite multipleSpacesPattern (fun _ => [' ']) 0 none s).length ≤ s.length := by
  intro n
  induction n with
  | zero =>
    intro s hn
    have : s = [] := List.eq_nil_of_length_eq_zero (by omega)
    subst this
    simp [scanRewrite]
  | succ n ih =>
    intro s hn
    cases s with
    | nil => simp [scanRewrite]
    | cons c t =>
      have ht : t.length ≤ n := by simpa using hn
      by_cases h : 2 ≤ ((c :: t).takeWhile isspace).length
      · rw [scanSpaces_run c t h]
        have hsplit := List.takeWhile_append_dropWhile isspace (c :: t)
        have hl : ((c :: t).takeWhile isspace).length + ((c :: t).dropWhile isspace).length
            = (c :: t).length := by
          rw [← List.length_append, hsplit]
        have hd : ((c :: t).dropWhile isspace).length ≤ n := by
          simp only [List.length_cons] at hl
          omega
        have := ih _ hd
        simp only [List.length_cons] at hl ⊢
        omega
      · rw [scanSpaces_copy c t h]
        have := ih t ht
        simp only [List.length_cons]
        omega

/-- With two adjacent white space characters the second replacement shortens the text. -/
theorem length_scanSpaces_lt (x : List Char)
    (hx : ¬ List.Chain' (fun c d => ¬ (isspace c = true ∧ isspace d = true)) x) :
    (scanRewrite multipleSpacesPattern (fun _ => [' ']) 0 none x).length < x.length := by
  induction x with
  | nil => exact absurd List.chain'_nil hx
  | cons c t ih =>
    by_cases h : 2 ≤ ((c :: t).takeWhile isspace).length
    · rw [scanSpaces_run c t h]
      have hsplit := List.takeWhile_append_dropWhile isspace (c :: t)
      have hl : ((c :: t).takeWhile isspace).length + ((c :: t).dropWhile isspace).length
          = (c :: t).length := by
        rw [← List.length_append, hsplit]
      have := length_scanSpaces_le _ ((c :: t).dropWhile isspace) (le_refl _)
      simp only [List.length_cons] at hl ⊢
      omega
    · rw [scanSpaces_copy c t h]
      have ht : ¬ List.Chain' (fun c d => ¬ (isspace c = true ∧ isspace d = true)) t := by
        intro hc
        apply hx
        cases t with
        | nil => exact List.chain'_singleton c
        | cons d u =>
          refine List.chain'_cons.2 ⟨?_, hc⟩
          rintro ⟨h1, h2⟩
          apply h
          simp [List.takeWhile_cons, h1, h2]
      have := ih ht
      simp only [List.length_cons]
      omega

/-! ## Idempotence of the repetition contract -/

theorem deleteRepeatedWordChars_idem :
    ∀ (s : List Char) (p : Option Char),
      deleteRepeatedWordChars p (deleteRepeatedWordChars p s) = deleteRepeatedWordChars p s := by
  intro s
  induction s with
  | nil => intro p; rfl
  | cons c t ih =>
    intro p
    by_cases h : isWordChar c = true ∧ p = some c
    · have e : deleteRepeatedWordChars p (c :: t) = deleteRepeatedWordChars p t := by
        rw [deleteRepeatedWordChars, if_pos h, h.2]
      rw [e, ih p]
    · have e : deleteRepeatedWordChars p (c :: t) = c :: deleteRepeatedWordChars (some c) t := by
        rw [deleteRepeatedWordChars, if_neg h]
      rw [e, deleteRepeatedWordChars, if_neg h, ih (some c)]

/-! ## The casing stage -/

theorem not_isupper_of_islower (c : Char) (h : islower c = true) : isupper c = false := by
  simp only [islower, isupper, Bool.and_eq_true, decide_eq_true_eq] at h ⊢
  simp only [Bool.and_eq_false_iff, decide_eq_false_iff_not]
  omega

theorem hasMixedCasingLoop_eq :
    ∀ (w : List Char) (hasUpper hasLower : Bool), (hasUpper && hasLower) = false →
      hasMixedCasingLoop hasUpper hasLower w
        = ((hasUpper || w.any isupper) && (hasLower || w.any islower)) := by
  intro w
  induction w with
  | nil => intro u l h; simp [hasMixedCasingLoop, h]
  | cons c t ih =>
    intro u l h
    rw [hasMixedCasingLoop]
    by_cases hu : isupper c = true
    · simp only [hu, if_true, List.any_cons]
      cases l with
      | true => simp
      | false =>
        simp only [Bool.and_false, Bool.false_eq_true, if_false]
        rw [ih true false rfl]
        have hl : islower c = false := by
          cases hq : islower c with
          | false => rfl
          | true => rw [not_isupper_of_islower c hq] at hu; cases hu
        simp [hl]
    · have hu0 : isupper c = false := by simpa using hu
      by_cases hl : islower c = true
      · simp only [hu0, hl, if_true, List.any_cons, Bool.false_eq_true, if_false]
        cases u with
        | true => simp
        | false =>
          simp only [Bool.false_and, Bool.false_eq_true, if_false]
          rw [ih false true rfl]
          simp
      · have hl0 : islower c = false := by simpa using hl
        simp only [hu0, hl0, List.any_cons, Bool.false_eq_true, if_false, h]
        rw [ih u l h]
        simp

/-- The scan of `hasMixedCasing` finds the words with both an uppercase and a
lowercase letter. -/
theorem hasMixedCasing_eq (w : List Char) : hasMixedCasing w = isMixedCase w := by
  unfold hasMixedCasing isMixedCase
  by_cases h : w.length ≤ 1
  · rw [if_pos h]
    cases w with
    | nil => rfl
    | cons c t =>
      have ht : t = [] := List.eq_nil_of_length_eq_zero (by simpa using h)
      subst ht
      cases hl : islower c with
      | false => simp [hl]
      | true => simp [hl, not_isupper_of_islower c hl]
  · rw [if_neg h, hasMixedCasingLoop_eq w false false rfl]
    simp

theorem normalizeWordCasing_eq (w : List Char) :
    normalizeWordCasing w = casingOfSegment (Segment.word w) := by
  simp only [normalizeWordCasing, casingOfSegment, hasMixedCasing_eq]
  cases w with
  | nil => simp [lowerKeepingCapital]
  | cons c t =>
    by_cases hm : isMixedCase (c :: t) = true
    · simp only [if_pos hm, List.map_cons, lowerKeepingCapital]
      by_cases hu : isupper c = true
      · simp only [if_pos hu]
      · simp only [if_neg hu]
    · simp only [if_neg hm]

theorem normalizeCasing_eq_scan (input : List Char) :
    normalizeCasing input = scanRewrite wordPattern normalizeWordCasing 0 none input := by
  unfold normalizeCasing
  cases input with
  | nil => rfl
  | cons c t => simp [rewriteLoop_regexMatches]

theorem casingContract_eq_scan :
    ∀ (n : Nat) (s : List Char), s.length ≤ n →
      casingContract s = scanRewrite wordPattern normalizeWordCasing 0 none s := by
  intro n
  induction n with
  | zero =>
    intro s hn
    have : s = [] := List.eq_nil_of_length_eq_zero (by omega)
    subst this
    simp [casingContract, segments, scanRewrite]
  | succ n ih =>
    intro s hn
    cases s with
    | nil => simp [casingContract, segments, scanRewrite]
    | cons c t =>
      have ht : t.length ≤ n := by simpa using hn
      by_cases hc : isWordChar c = true
      · have hlen : (t.dropWhile isWordChar).length ≤ n :=
          le_trans (List.dropWhile_sublist isWordChar).length_le ht
        rw [scanRewrite_word_word _ c t hc, ← ih _ hlen, normalizeWordCasing_eq]
        simp [casingContract, segments, hc]
      · have hc0 : isWordChar c = false := by simpa using hc
        rw [scanRewrite_word_other _ c t hc0, ← ih t ht]
        simp [casingContract, segments, hc0, casingOfSegment]

/-! ## The repetition stage and its contract -/

theorem normalizeRepeatedCharacters_eq_contract (x : List Char) :
    normalizeRepeatedCharacters x = deleteRepeatedWordChars none x := by
  rw [normalizeRepeatedCharacters_eq_scan]
  exact (deleteRepeatedWordChars_eq_scan x.length x none (le_refl _) (Or.inl rfl)).symm

/-! ## Induction along the scans -/

/-- Induction along the scan with `\b\w+\b`: a character outside words is stepped
over, a word is stepped over as a whole. -/
theorem wordScan_induction (P : List Char → Prop) (hnil : P [])
    (hother : ∀ c t, isWordChar c = false → P t → P (c :: t))
    (hword : ∀ c t, isWordChar c = true → P (t.dropWhile isWordChar) → P (c :: t)) :
    ∀ s, P s := by
  have key : ∀ (n : Nat) (s : List Char), s.length ≤ n → P s := by
    intro n
    induction n with
    | zero =>
      intro s hn
      have : s = [] := List.eq_nil_of_length_eq_zero (by omega)
      subst this
      exact hnil
    | succ n ih =>
      intro s hn
      cases s with
      | nil => exact hnil
      | cons c t =>
        have ht : t.length ≤ n := by simpa using hn
        by_cases hc : isWordChar c = true
        · exact hword c t hc
            (ih _ (le_trans (List.dropWhile_sublist isWordChar).length_le ht))
        · exact hother c t (by simpa using hc) (ih t ht)
  intro s
  exact key s.length s (le_refl _)

theorem length_tail_dropWhile_le (p : Char → Bool) (t u : List Char) (c : Char)
    (h : t.dropWhile p = c :: u) : u.length + 1 ≤ t.length := by
  have h1 := (List.dropWhile_sublist p (l := t)).length_le
  rw [h] at h1
  simpa using h1

/-- Induction along the scan with `\*[^*]*\*`: other characters and an asterisk
without a partner are stepped over, an annotation is stepped over as a whole. -/
theorem asteriskScan_induction (P : List Char → Prop) (hnil : P [])
    (hother : ∀ c t, c ≠ '*' → P t → P (c :: t))
    (hopen : ∀ t, t.dropWhile (fun c => c != '*') = [] → P t → P ('*' :: t))
    (hpair : ∀ t u, t.dropWhile (fun c => c != '*') = '*' :: u → P u → P ('*' :: t)) :
    ∀ s, P s := by
  have key : ∀ (n : Nat) (s : List Char), s.length ≤ n → P s := by
    intro n
    induction n with
    | zero =>
      intro s hn
      have : s = [] := List.eq_nil_of_length_eq_zero (by omega)
      subst this
      exact hnil
    | succ n ih =>
      intro s hn
      cases s with
      | nil => exact hnil
      | cons c t =>
        have ht : t.length ≤ n := by simpa using hn
        by_cases hc : c = '*'
        · subst hc
          cases hd : t.dropWhile (fun c => c != '*') with
          | nil => exact hopen t hd (ih t ht)
          | cons d u =>
            have hd1 : d = '*' := by
              have := head_dropWhile_not _ t d u hd
              simpa using this
            subst hd1
            have hu := length_tail_dropWhile_le _ t u '*' hd
            exact hpair t u hd (ih u (by omega))
        · exact hother c t hc (ih t ht)
  intro s
  exact key s.length s (le_refl _)

/-- Induction along the scan with `\s{2,}`: a run of two or more white space characters
is stepped over as a whole, any other character alone. -/
theorem spacesScan_induction (P : List Char → Prop) (hnil : P [])
    (hcopy : ∀ c t, ¬ (2 ≤ ((c :: t).takeWhile isspace).length) → P t → P (c :: t))
    (hrun : ∀ c t, 2 ≤ ((c :: t).takeWhile isspace).length →
      P ((c :: t).dropWhile isspace) → P (c :: t)) :
    ∀ s, P s := by
  have key : ∀ (n : Nat) (s : List Char), s.length ≤ n → P s := by
    intro n
    induction n with
    | zero =>
      intro s hn
      have : s = [] := List.eq_nil_of_length_eq_zero (by omega)
      subst this
      exact hnil
    | succ n ih =>
      intro s hn
      cases s with
      | nil => exact hnil
      | cons c t =>
        have ht : t.length ≤ n := by simpa using hn
        by_cases h : 2 ≤ ((c :: t).takeWhile isspace).length
        · apply hrun c t h
          apply ih
          have hl : ((c :: t).takeWhile isspace).length + ((c :: t).dropWhile isspace).length
              = (c :: t).length := by
            rw [← List.length_append, List.takeWhile_append_dropWhile]
          simp only [List.length_cons] at hl
          omega
        · exact hcopy c t h (ih t ht)
  intro s
  exact key s.length s (le_refl _)

/-! ## Lengths -/

theorem length_takeWhile_add_dropWhile (p : Char → Bool) (t : List Char) :
    (t.takeWhile p).length + (t.dropWhile p).length = t.length := by
  rw [← List.length_append, List.takeWhile_append_dropWhile]

/-- A rewriting that keeps the length of every word keeps the length of the text. -/
theorem length_scanWord (f : List Char → List Char) (hf : ∀ w, (f w).length = w.length) :
    ∀ s, (scanRewrite wordPattern f 0 none s).length = s.length := by
  apply wordScan_induction
  · rfl
  · intro c t hc ih
    rw [scanRewrite_word_other f c t hc, List.length_cons, ih, List.length_cons]
  · intro c t hc ih
    rw [scanRewrite_word_word f c t hc, List.length_append, hf, ih]
    have := length_takeWhile_add_dropWhile isWordChar t
    simp only [List.length_cons]
    omega

theorem length_lowerKeepingCapital (w : List Char) :
    (lowerKeepingCapital w).length = w.length := by
  cases w with
  | nil => rfl
  | cons c t => simp [lowerKeepingCapital]

theorem length_normalizeWordCasing (w : List Char) :
    (normalizeWordCasing w).length = w.length := by
  rw [normalizeWordCasing_eq, casingOfSegment]
  split
  · exact length_lowerKeepingCapital w
  · rfl

theorem length_deleteRepeatedWordChars_le :
    ∀ (s : List Char) (p : Option Char), (deleteRepeatedWordChars p s).length ≤ s.length := by
  intro s
  induction s with
  | nil => intro p; simp [deleteRepeatedWordChars]
  | cons c t ih =>
    intro p
    rw [deleteRepeatedWordChars]
    have := ih (some c)
    split
    · simp only [List.length_cons]; omega
    · simp only [List.length_cons]; omega

theorem length_scanAsterisk_le :
    ∀ s, (scanRewrite asteriskPattern (fun _ => []) 0 none s).length ≤ s.length := by
  apply asteriskScan_induction
  · simp [scanRewrite]
  · intro c t hc ih
    rw [scanAsterisk_other c t hc]
    simp only [List.length_cons]; omega
  · intro t ht ih
    rw [scanAsterisk_open t ht]
    simp only [List.length_cons]; omega
  · intro t u ht ih
    rw [scanAsterisk_pair t u ht]
    have := length_tail_dropWhile_le _ t u '*' ht
    simp only [List.length_cons]; omega

/-! ## White space and asterisks in the output of the annotation stage -/

/-- After the second replacement no two white space characters are adjacent, and the
text starts with white space only if it did before. -/
theorem scanSpaces_chain :
    ∀ s, List.Chain' (fun c d => ¬ (isspace c = true ∧ isspace d = true))
        (scanRewrite multipleSpacesPattern (fun _ => [' ']) 0 none s)
      ∧ ((∀ d, s.head? = some d → isspace d = false) →
          ∀ c, (scanRewrite multipleSpacesPattern (fun _ => [' ']) 0 none s).head? = some c →
            isspace c = false) := by
  apply spacesScan_induction
  · constructor
    · simp [scanRewrite]
    · intro _ c hc
      simp [scanRewrite] at hc
  · intro c t h ih
    rw [scanSpaces_copy c t h]
    constructor
    · refine List.chain'_cons'.2 ⟨?_, ih.1⟩
      intro b hb
      rintro ⟨hc, hbs⟩
      have hb1 : (scanRewrite multipleSpacesPattern (fun _ => [' ']) 0 none t).head? = some b := hb
      have hhead : ∀ d, t.head? = some d → isspace d = false := by
        intro d hd
        cases t with
        | nil => simp at hd
        | cons e u =>
          have he : e = d := by simpa using hd
          subst he
          cases hq : isspace e with
          | false => rfl
          | true =>
            exfalso
            apply h
            simp [List.takeWhile_cons, hc, hq]
      rw [ih.2 hhead b hb1] at hbs
      cases hbs
    · intro hd e he
      have : c = e := by simpa using he
      subst this
      exact hd c rfl
  · intro c t h ih
    rw [scanSpaces_run c t h]
    have hhead : ∀ d, ((c :: t).dropWhile isspace).head? = some d → isspace d = false := by
      intro d hd
      cases hq : (c :: t).dropWhile isspace with
      | nil => rw [hq] at hd; simp at hd
      | cons e u =>
        rw [hq] at hd
        have he : e = d := by simpa using hd
        subst he
        exact head_dropWhile_not isspace (c :: t) e u hq
    constructor
    · refine List.chain'_cons'.2 ⟨?_, ih.1⟩
      intro b hb
      rintro ⟨_, hbs⟩
      rw [ih.2 hhead b hb] at hbs
      cases hbs
    · intro hd e _
      exfalso
      have hc : isspace c = false := hd c rfl
      simp [List.takeWhile_cons, hc] at h

/-- A text with at most one asterisk is copied by the first replacement. -/
theorem scanAsterisk_id_of_count_le_one :
    ∀ x : List Char, x.count '*' ≤ 1 →
      scanRewrite asteriskPattern (fun _ => []) 0 none x = x := by
  intro x
  induction x with
  | nil => intro _; rfl
  | cons c t ih =>
    intro h
    by_cases hc : c = '*'
    · subst hc
      have h0 : t.count '*' = 0 := by
        rw [List.count_cons_self] at h
        omega
      have hmem : '*' ∉ t := List.count_eq_zero.1 h0
      have hd : t.dropWhile (fun c => c != '*') = [] := by
        rw [List.dropWhile_eq_nil_iff]
        intro y hy
        have : y ≠ '*' := fun e => hmem (e ▸ hy)
        simpa using this
      rw [scanAsterisk_open t hd, scanAsterisk_id t hmem]
    · have h1 : t.count '*' ≤ 1 := by
        rw [List.count_cons_of_ne (Ne.symm hc)] at h
        exact h
      rw [scanAsterisk_other c t hc, ih h1]

/-- The first replacement removes the asterisks in pairs. -/
theorem count_scanAsterisk :
    ∀ s, (scanRewrite asteriskPattern (fun _ => []) 0 none s).count '*' = s.count '*' % 2 := by
  apply asteriskScan_induction
  · rfl
  · intro c t hc ih
    rw [scanAsterisk_other c t hc, List.count_cons_of_ne (Ne.symm hc),
      List.count_cons_of_ne (Ne.symm hc), ih]
  · intro t ht ih
    have hmem : '*' ∉ t := by
      intro hm
      have := (List.dropWhile_eq_nil_iff.1 ht) '*' hm
      simp at this
    have h0 : t.count '*' = 0 := List.count_eq_zero.2 hmem
    rw [scanAsterisk_open t ht, List.count_cons_self, List.count_cons_self, ih, h0]
  · intro t u ht ih
    have hsplit : t = t.takeWhile (fun c => c != '*') ++ '*' :: u := by
      rw [← ht, List.takeWhile_append_dropWhile]
    have htw : (t.takeWhile (fun c => c != '*')).count '*' = 0 := by
      apply List.count_eq_zero.2
      intro hm
      have := List.mem_takeWhile_imp hm
      simp at this
    have hcount : t.count '*' = u.count '*' + 1 := by
      conv_lhs => rw [hsplit]
      rw [List.count_append, htw, List.count_cons_self]
      omega
    rw [scanAsterisk_pair t u ht, List.count_cons_self, ih, hcount]
    omega

/-- The second replacement neither removes nor adds an asterisk. -/
theorem count_scanSpaces :
    ∀ s, (scanRewrite multipleSpacesPattern (fun _ => [' ']) 0 none s).count '*'
      = s.count '*' := by
  apply spacesScan_induction
  · rfl
  · intro c t h ih
    rw [scanSpaces_copy c t h, List.count_cons, List.count_cons, ih]
  · intro c t h ih
    have htw : ((c :: t).takeWhile isspace).count '*' = 0 := by
      apply List.count_eq_zero.2
      intro hm
      have := List.mem_takeWhile_imp hm
      simp [isspace] at this
    have hsplit : (c :: t).count '*'
        = ((c :: t).takeWhile isspace).count '*' + ((c :: t).dropWhile isspace).count '*' := by
      rw [← List.count_append, List.takeWhile_append_dropWhile]
    rw [scanSpaces_run c t h, hsplit, htw, List.count_cons_of_ne (by decide), ih]
    omega

/-! ## Characters under `tolower` and `toupper` -/

theorem toNat_ofNat_of_lt (n : Nat) (h : n < 55296) : (Char.ofNat n).toNat = n := by
  have hv : n.isValidChar := Or.inl h
  unfold Char.ofNat
  rw [dif_pos hv]
  simp [Char.ofNatAux, Char.toNat, UInt32.toNat]

theorem isupper_iff (c : Char) : isupper c = true ↔ 65 ≤ c.toNat ∧ c.toNat ≤ 90 := by
  simp [isupper]

theorem islower_iff (c : Char) : islower c = true ↔ 97 ≤ c.toNat ∧ c.toNat ≤ 122 := by
  simp [islower]

theorem tolower_of_not_isupper (c : Char) (h : isupper c = false) : tolower c = c := by
  simp [tolower, h]

theorem toNat_tolower (c : Char) (h : isupper c = true) : (tolower c).toNat = c.toNat + 32 := by
  have h1 := (isupper_iff c).1 h
  rw [tolower, if_pos h, toNat_ofNat_of_lt _ (by omega)]

theorem islower_tolower (c : Char) (h : isupper c = true) : islower (tolower c) = true := by
  have h1 := (isupper_iff c).1 h
  rw [islower_iff, toNat_tolower c h]
  omega

theorem isupper_tolower (c : Char) : isupper (tolower c) = false := by
  cases h : isupper c with
  | true => exact not_isupper_of_islower _ (islower_tolower c h)
  | false => rw [tolower_of_not_isupper c h, h]

theorem tolower_tolower (c : Char) : tolower (tolower c) = tolower c :=
  tolower_of_not_isupper _ (isupper_tolower c)

theorem toupper_tolower (c : Char) (h : isupper c = true) : toupper (tolower c) = c := by
  have h1 := (isupper_iff c).1 h
  rw [toupper, if_pos (islower_tolower c h), toNat_tolower c h]
  have : c.toNat + 32 - 32 = c.toNat := by omega
  rw [this, Char.ofNat_toNat]

theorem isWordChar_tolower (c : Char) : isWordChar (tolower c) = isWordChar c := by
  cases h : isupper c with
  | true => simp [isWordChar, islower_tolower c h, h]
  | false => rw [tolower_of_not_isupper c h]

/-- The first character of a rewritten word: the lowercase form, uppercased again
when the character was an uppercase letter. -/
theorem capital_eq (c : Char) :
    (if isupper c = true then toupper (tolower c) else tolower c) = c := by
  cases h : isupper c with
  | true => simp [toupper_tolower c h]
  | false => simp [tolower_of_not_isupper c h]

theorem lowerKeepingCapital_cons (c : Char) (t : List Char) :
    lowerKeepingCapital (c :: t) = c :: t.map tolower := by
  rw [lowerKeepingCapital, capital_eq]

theorem lowerKeepingCapital_idem (w : List Char) :
    lowerKeepingCapital (lowerKeepingCapital w) = lowerKeepingCapital w := by
  cases w with
  | nil => rfl
  | cons c t =>
    rw [lowerKeepingCapital_cons, lowerKeepingCapital_cons]
    simp [tolower_tolower]

theorem map_isWordChar_lowerKeepingCapital (w : List Char) :
    (lowerKeepingCapital w).map isWordChar = w.map isWordChar := by
  cases w with
  | nil => rfl
  | cons c t =>
    rw [lowerKeepingCapital_cons]
    simp [isWordChar_tolower]

/-! ## The words of a text and of the output of the casing stage -/

theorem segments_nil : segments [] = [] := by
  rw [segments]

theorem segments_other (c : Char) (t : List Char) (hc : isWordChar c = false) :
    segments (c :: t) = Segment.other c :: segments t := by
  rw [segments]
  simp [hc]

theorem segments_word (c : Char) (t : List Char) (hc : isWordChar c = true) :
    segments (c :: t)
      = Segment.word (c :: t.takeWhile isWordChar) :: segments (t.dropWhile isWordChar) := by
  rw [segments]
  simp [hc]

theorem takeWhile_append_of_all (p : Char → Bool) (w r : List Char)
    (hw : ∀ d ∈ w, p d = true) (hr : ∀ d, r.head? = some d → p d = false) :
    (w ++ r).takeWhile p = w ∧ (w ++ r).dropWhile p = r := by
  induction w with
  | nil =>
    cases r with
    | nil => simp
    | cons d u =>
      have hd : p d = false := hr d rfl
      simp [List.takeWhile_cons, List.dropWhile_cons, hd]
  | cons e w ih =>
    have he : p e = true := hw e (by simp)
    have ih1 := ih (fun d hd => hw d (by simp [hd]))
    simp [List.takeWhile_cons, List.dropWhile_cons, he, ih1.1, ih1.2]

theorem head?_of_rightIsWord_false (r : List Char) (h : rightIsWord r = false) :
    ∀ d, r.head? = some d → isWordChar d = false := by
  intro d hd
  cases r with
  | nil => simp at hd
  | cons e u =>
    have : e = d := by simpa using hd
    subst this
    exact h

/-- A run of word characters before a text that starts outside a word is a word of
the whole. -/
theorem segments_word_append (w r : List Char) (hne : w ≠ [])
    (hw : ∀ d ∈ w, isWordChar d = true) (hr : rightIsWord r = false) :
    segments (w ++ r) = Segment.word w :: segments r := by
  cases w with
  | nil => exact absurd rfl hne
  | cons c u =>
    have hc : isWordChar c = true := hw c (by simp)
    have h := takeWhile_append_of_all isWordChar u r (fun d hd => hw d (by simp [hd]))
      (head?_of_rightIsWord_false r hr)
    rw [List.cons_append, segments_word c _ hc, h.1, h.2]

theorem map_isWordChar_normalizeWordCasing (w : List Char) :
    (normalizeWordCasing w).map isWordChar = w.map isWordChar := by
  rw [normalizeWordCasing_eq, casingOfSegment]
  split
  · exact map_isWordChar_lowerKeepingCapital w
  · rfl

/-- The casing stage leaves every character on its side of the word boundary. -/
theorem map_isWordChar_scanCasing :
    ∀ s, (scanRewrite wordPattern normalizeWordCasing 0 none s).map isWordChar
      = s.map isWordChar := by
  apply wordScan_induction
  · rfl
  · intro c t hc ih
    rw [scanRewrite_word_other _ c t hc, List.map_cons, ih, List.map_cons]
  · intro c t hc ih
    rw [scanRewrite_word_word _ c t hc, List.map_append, map_isWordChar_normalizeWordCasing, ih,
      ← List.map_append, List.cons_append, List.takeWhile_append_dropWhile]

theorem rightIsWord_of_map_eq (a b : List Char) (h : a.map isWordChar = b.map isWordChar) :
    rightIsWord a = rightIsWord b := by
  cases a with
  | nil =>
    cases b with
    | nil => rfl
    | cons d u => simp at h
  | cons c t =>
    cases b with
    | nil => simp at h
    | cons d u =>
      simp only [List.map_cons, List.cons.injEq] at h
      exact h.1

theorem all_isWordChar_of_map_eq (a b : List Char) (h : a.map isWordChar = b.map isWordChar)
    (hb : ∀ d ∈ b, isWordChar d = true) : ∀ d ∈ a, isWordChar d = true := by
  intro d hd
  have h1 : isWordChar d ∈ a.map isWordChar := List.mem_map_of_mem _ hd
  rw [h] at h1
  obtain ⟨e, he, hee⟩ := List.mem_map.1 h1
  rw [← hee]
  exact hb e he

/-- The words of the output of the casing stage are the rewritten words of the input,
in the same places. -/
theorem segments_scanCasing :
    ∀ s, segments (scanRewrite wordPattern normalizeWordCasing 0 none s)
      = (segments s).map (fun seg =>
          match seg with
          | Segment.word w => Segment.word (normalizeWordCasing w)
          | Segment.other c => Segment.other c) := by
  apply wordScan_induction
  · simp [scanRewrite, segments_nil]
  · intro c t hc ih
    rw [scanRewrite_word_other _ c t hc, segments_other c _ hc, segments_other c t hc, ih]
    rfl
  · intro c t hc ih
    rw [scanRewrite_word_word _ c t hc, segments_word c t hc]
    have hmap := map_isWordChar_normalizeWordCasing (c :: t.takeWhile isWordChar)
    have hall : ∀ d ∈ c :: t.takeWhile isWordChar, isWordChar d = true := by
      intro d hd
      rcases List.mem_cons.1 hd with h | h
      · rw [h]; exact hc
      · exact List.mem_takeWhile_imp h
    have hne : normalizeWordCasing (c :: t.takeWhile isWordChar) ≠ [] := by
      intro h0
      rw [h0] at hmap
      simp at hmap
    have hr : rightIsWord (scanRewrite wordPattern normalizeWordCasing 0 none
        (t.dropWhile isWordChar)) = false := by
      rw [rightIsWord_of_map_eq _ _ (map_isWordChar_scanCasing _)]
      exact rightIsWord_dropWhile t
    rw [segments_word_append _ _ hne (all_isWordChar_of_map_eq _ _ hmap hall) hr, ih]
    rfl

/-- Rewriting a rewritten word changes nothing. -/
theorem normalizeWordCasing_idem (w : List Char) :
    normalizeWordCasing (normalizeWordCasing w) = normalizeWordCasing w := by
  rw [normalizeWordCasing_eq w, casingOfSegment]
  split
  · rw [normalizeWordCasing_eq, casingOfSegment]
    split
    · exact lowerKeepingCapital_idem w
    · rfl
  · rename_i h
    rw [normalizeWordCasing_eq, casingOfSegment, if_neg h]

/-- A text without a word of mixed casing is copied by the casing stage. -/
theorem scanCasing_id :
    ∀ s, (∀ w, Segment.word w ∈ segments s → isMixedCase w = false) →
      scanRewrite wordPattern normalizeWordCasing 0 none s = s := by
  apply wordScan_induction
  · intro _; rfl
  · intro c t hc ih h
    rw [scanRewrite_word_other _ c t hc, ih]
    intro w hw
    apply h w
    rw [segments_other c t hc]
    exact List.mem_cons_of_mem _ hw
  · intro c t hc ih h
    rw [segments_word c t hc] at h
    have h1 : isMixedCase (c :: t.takeWhile isWordChar) = false := h _ (List.mem_cons_self _ _)
    rw [scanRewrite_word_word _ c t hc, ih (fun w hw => h w (List.mem_cons_of_mem _ hw)),
      normalizeWordCasing_eq, casingOfSegment, if_neg (by simp [h1]), List.cons_append,
      List.takeWhile_append_dropWhile]

theorem normalizeCasing_eq_contract (x : List Char) : normalizeCasing x = casingContract x := by
  rw [normalizeCasing_eq_scan]
  exact (casingContract_eq_scan x.length x (le_refl _)).symm

/-- A word of the output of the casing stage with a lowercase letter has no uppercase
letter after its first character. -/
theorem normalizeWordCasing_tail (w0 : List Char)
    (hl : (normalizeWordCasing w0).any islower = true) :
    ∀ c ∈ (normalizeWordCasing w0).tail, isupper c = false := by
  rw [normalizeWordCasing_eq, casingOfSegment] at hl ⊢
  split
  · cases w0 with
    | nil => simp [lowerKeepingCapital]
    | cons d t =>
      rw [lowerKeepingCapital_cons]
      intro c hc
      obtain ⟨e, _, he⟩ := List.mem_map.1 hc
      rw [← he]
      exact isupper_tolower e
  · rename_i hm
    rw [if_neg hm] at hl
    have hu : w0.any isupper = false := by
      cases hq : w0.any isupper with
      | false => rfl
      | true => exact absurd (by simp [isMixedCase, hq, hl]) hm
    intro c hc
    have hc0 : c ∈ w0 := List.mem_of_mem_tail hc
    cases hq : isupper c with
    | false => rfl
    | true =>
      have : w0.any isupper = true := List.any_eq_true.2 ⟨c, hc0, hq⟩
      rw [hu] at this
      cases this

/-! ## The annotation stage and its contract -/

theorem outsidePairs_modifyHead (c : Char) (ps : List (List Char)) (h : ps ≠ []) :
    outsidePairs (ps.modifyHead (List.cons c)) = c :: outsidePairs ps := by
  cases ps with
  | nil => exact absurd rfl h
  | cons p qs =>
    cases qs with
    | nil => simp [outsidePairs]
    | cons q rs =>
      cases rs with
      | nil => simp [outsidePairs]
      | cons r rest => simp [outsidePairs]

/-- The first replacement removes the annotations paired from the left. -/
theorem scanAsterisk_eq_outsidePairs :
    ∀ s, scanRewrite asteriskPattern (fun _ => []) 0 none s = outsidePairs (s.splitOn '*') := by
  apply asteriskScan_induction
  · simp [scanRewrite, outsidePairs]
  · intro c t hc ih
    have hp : (c == '*') = false := by simpa using hc
    rw [scanAsterisk_other c t hc, ih, List.splitOn, List.splitOn, List.splitOnP_cons, hp]
    simp only [Bool.false_eq_true, if_false]
    rw [outsidePairs_modifyHead c _ (List.splitOnP_ne_nil _ t)]
  · intro t ht _
    have hall : ∀ y ∈ t, ¬ ((y == '*') = true) := by
      intro y hy
      have := (List.dropWhile_eq_nil_iff.1 ht) y hy
      simpa using this
    have hmem : '*' ∉ t := by
      intro hm
      exact hall '*' hm (by simp)
    rw [scanAsterisk_open t ht, scanAsterisk_id t hmem, List.splitOn, List.splitOnP_cons]
    simp only [beq_self_eq_true, if_true]
    rw [List.splitOnP_eq_single _ t hall]
    simp [outsidePairs]
  · intro t u ht ih
    have hsplit : t = t.takeWhile (fun c => c != '*') ++ '*' :: u := by
      rw [← ht, List.takeWhile_append_dropWhile]
    have hall : ∀ y ∈ t.takeWhile (fun c => c != '*'), ¬ ((y == '*') = true) := by
      intro y hy
      have := List.mem_takeWhile_imp hy
      simpa using this
    have h1 : t.splitOnP (fun c => c == '*')
        = t.takeWhile (fun c => c != '*') :: u.splitOnP (fun c => c == '*') := by
      conv_lhs => rw [hsplit]
      exact List.splitOnP_first _ _ hall '*' (by simp) u
    rw [scanAsterisk_pair t u ht, ih, List.splitOn, List.splitOn, List.splitOnP_cons]
    simp only [beq_self_eq_true, if_true]
    rw [h1]
    cases hq : u.splitOnP (fun c => c == '*') with
    | nil => exact absurd hq (List.splitOnP_ne_nil _ u)
    | cons r rest => simp [outsidePairs]

/-- The second replacement collapses the runs of white space. -/
theorem scanSpaces_eq_collapseSpaceRuns :
    ∀ s, scanRewrite multipleSpacesPattern (fun _ => [' ']) 0 none s = collapseSpaceRuns s := by
  apply spacesScan_induction
  · rw [collapseSpaceRuns]
    rfl
  · intro c t h ih
    rw [scanSpaces_copy c t h, ih, collapseSpaceRuns]
    by_cases hc : isspace c = true
    · have h1 : t.takeWhile isspace = [] := by
        cases hq : t.takeWhile isspace with
        | nil => rfl
        | cons d u =>
          exfalso
          apply h
          simp [List.takeWhile_cons, hc, hq]
      have h2 : t.dropWhile isspace = t := by
        have := List.takeWhile_append_dropWhile isspace t
        rw [h1] at this
        simpa using this
      simp [hc, h1, h2]
    · simp [hc]
  · intro c t h ih
    have hc : isspace c = true := by
      cases hq : isspace c with
      | true => rfl
      | false => simp [List.takeWhile_cons, hq] at h
    have h1 : (c :: t).takeWhile isspace = c :: t.takeWhile isspace := by
      simp [List.takeWhile_cons, hc]
    have h2 : (c :: t).dropWhile isspace = t.dropWhile isspace := by
      simp [List.dropWhile_cons, hc]
    rw [scanSpaces_run c t h, ih, h2, collapseSpaceRuns, if_pos hc]
    rw [h1] at h
    rw [if_pos h]
    rfl

theorem removeAsterisks_eq_contract (x : List Char) : removeAsterisks x = annotationContract x := by
  rw [removeAsterisks_eq_scan, scanAsterisk_eq_outsidePairs, scanSpaces_eq_collapseSpaceRuns,
    annotationContract]

theorem takeWhile_append_cons_of_not (p : Char → Bool) (a : List Char) (c : Char) (s : List Char)
    (hc : p c = false) :
    (a ++ c :: s).takeWhile p = a.takeWhile p
      ∧ (a ++ c :: s).dropWhile p = a.dropWhile p ++ c :: s := by
  induction a with
  | nil => simp [List.takeWhile_cons, List.dropWhile_cons, hc]
  | cons d t ih =>
    by_cases hd : p d = true
    · simp [List.takeWhile_cons, List.dropWhile_cons, hd, ih.1, ih.2]
    · simp [List.takeWhile_cons, List.dropWhile_cons, hd]

/-- The second replacement works on each side of a character that is no white space. -/
theorem scanSpaces_append_cons (c : Char) (s : List Char) (hc : isspace c = false) :
    ∀ a, scanRewrite multipleSpacesPattern (fun _ => [' ']) 0 none (a ++ c :: s)
      = scanRewrite multipleSpacesPattern (fun _ => [' ']) 0 none a
        ++ c :: scanRewrite multipleSpacesPattern (fun _ => [' ']) 0 none s := by
  apply spacesScan_induction
  · have h : ¬ (2 ≤ ((c :: s).takeWhile isspace).length) := by
      simp [List.takeWhile_cons, hc]
    rw [List.nil_append, scanSpaces_copy c s h]
    rfl
  · intro d t h ih
    have e := takeWhile_append_cons_of_not isspace (d :: t) c s hc
    have h1 : ¬ (2 ≤ ((d :: (t ++ c :: s)).takeWhile isspace).length) := by
      rw [← List.cons_append, e.1]
      exact h
    rw [List.cons_append, scanSpaces_copy d _ h1, ih, scanSpaces_copy d t h, List.cons_append]
  · intro d t h ih
    have e := takeWhile_append_cons_of_not isspace (d :: t) c s hc
    have h1 : 2 ≤ ((d :: (t ++ c :: s)).takeWhile isspace).length := by
      rw [← List.cons_append, e.1]
      exact h
    rw [List.cons_append, scanSpaces_run d _ h1, ← List.cons_append, e.2, ih,
      scanSpaces_run d t h, List.cons_append]

/-- The first replacement works on each side of a text with an even number of asterisks. -/
theorem scanAsterisk_append_even (r : List Char) :
    ∀ a, a.count '*' % 2 = 0 →
      scanRewrite asteriskPattern (fun _ => []) 0 none (a ++ r)
        = scanRewrite asteriskPattern (fun _ => []) 0 none a
          ++ scanRewrite asteriskPattern (fun _ => []) 0 none r := by
  apply asteriskScan_induction
  · intro _; rfl
  · intro c t hc ih h
    rw [List.count_cons_of_ne (Ne.symm hc)] at h
    rw [List.cons_append, scanAsterisk_other c _ hc, ih h, scanAsterisk_other c t hc,
      List.cons_append]
  · intro t ht _ h
    exfalso
    have hmem : '*' ∉ t := by
      intro hm
      have := (List.dropWhile_eq_nil_iff.1 ht) '*' hm
      simp at this
    rw [List.count_cons_self, List.count_eq_zero.2 hmem] at h
    omega
  · intro t u ht ih h
    have hsplit : t = t.takeWhile (fun c => c != '*') ++ '*' :: u := by
      rw [← ht, List.takeWhile_append_dropWhile]
    have htw : '*' ∉ t.takeWhile (fun c => c != '*') := by
      intro hm
      have := List.mem_takeWhile_imp hm
      simp at this
    have hcount : t.count '*' = u.count '*' + 1 := by
      conv_lhs => rw [hsplit]
      rw [List.count_append, List.count_eq_zero.2 htw, List.count_cons_self]
      omega
    have hu : u.count '*' % 2 = 0 := by
      rw [List.count_cons_self, hcount] at h
      omega
    have hd : (t ++ r).dropWhile (fun c => c != '*') = '*' :: (u ++ r) := by
      conv_lhs => rw [hsplit]
      rw [List.append_assoc, List.cons_append]
      exact dropWhile_not_asterisk_append _ _ htw
    rw [List.cons_append, scanAsterisk_pair _ _ hd, ih hu, scanAsterisk_pair t u ht]

/-- The first asterisk and the next one go with the text between them, whatever
follows. -/
theorem removeAsterisks_first_pair (a m b : List Char) (ha : '*' ∉ a) (hm : '*' ∉ m) :
    removeAsterisks (a ++ ['*'] ++ m ++ ['*'] ++ b) = removeAsterisks (a ++ b) := by
  rw [removeAsterisks_eq_scan, removeAsterisks_eq_scan]
  have e : a ++ ['*'] ++ m ++ ['*'] ++ b = a ++ '*' :: (m ++ '*' :: b) := by simp
  rw [e, scanAsterisk_append _ _ ha,
    scanAsterisk_pair _ b (dropWhile_not_asterisk_append m b hm),
    scanAsterisk_append a b ha]

/-- An asterisk after an even number of asterisks, with none after it, stays. -/
theorem removeAsterisks_last_unpaired (a s : List Char) (ha : a.count '*' % 2 = 0)
    (hs : '*' ∉ s) :
    removeAsterisks (a ++ ['*'] ++ s) = removeAsterisks a ++ '*' :: collapseSpaceRuns s := by
  have e : a ++ ['*'] ++ s = a ++ '*' :: s := by simp
  have h1 : ('*' :: s).count '*' ≤ 1 := by
    rw [List.count_cons_self, List.count_eq_zero.2 hs]
  rw [removeAsterisks_eq_scan, removeAsterisks_eq_scan, e, scanAsterisk_append_even _ a ha,
    scanAsterisk_id_of_count_le_one _ h1, scanSpaces_append_cons '*' s (by decide),
    scanSpaces_eq_collapseSpaceRuns s]

/-! ## The claims -/

/-- C1: for every input, the empty one included, `normalizeText` is the repetition
stage, then the annotation stage, then the casing stage, each applied to the
full output of the one before. -/
theorem normalizeText_is_pipeline (x : List Char) :
    normalizeText x = normalizeCasing (removeAsterisks (normalizeRepeatedCharacters x)) := by
  cases x with
  | nil => rfl
  | cons c t => simp [normalizeText]

/-- C2: `normalizeRepeatedCharacters` deletes exactly the characters that are word
characters equal to the character immediately before them, and copies every
other character; so `a__b` gives `a_b`, `1000` gives `10` and `!!!  ??` is
unchanged. -/
theorem normalizeRepeatedCharacters_spec :
    (∀ x : List Char, normalizeRepeatedCharacters x = deleteRepeatedWordChars none x)
    ∧ normalizeRepeatedCharacters "a__b".toList = "a_b".toList
    ∧ normalizeRepeatedCharacters "1000".toList = "10".toList
    ∧ normalizeRepeatedCharacters "!!!  ??".toList = "!!!  ??".toList := by
  exact ⟨normalizeRepeatedCharacters_eq_contract, by decide, by decide, by decide⟩

/-- C3: for `a`, `m` and `b` without an asterisk, `removeAsterisks` gives the same text
for `a ++ "*" ++ m ++ "*" ++ b` as for `a ++ b`: the annotation goes with both of its
asterisks, whatever `m` holds, and white space is then collapsed as in the text
without the annotation. -/
theorem removeAsterisks_single_annotation (a m b : List Char)
    (ha : '*' ∉ a) (hm : '*' ∉ m) (_hb : '*' ∉ b) :
    removeAsterisks (a ++ ['*'] ++ m ++ ['*'] ++ b) = removeAsterisks (a ++ b) := by
  rw [removeAsterisks_eq_scan, removeAsterisks_eq_scan]
  have e : a ++ ['*'] ++ m ++ ['*'] ++ b = a ++ '*' :: (m ++ '*' :: b) := by simp
  rw [e, scanAsterisk_append _ _ ha,
    scanAsterisk_pair _ b (dropWhile_not_asterisk_append m b hm),
    scanAsterisk_append a b ha]

/-- C3, witness: the annotation `*a \n b*` between `Hi ` and ` you`. -/
theorem removeAsterisks_single_annotation_witness :
    '*' ∉ "Hi ".toList ∧ '*' ∉ "a \n b".toList ∧ '*' ∉ " you".toList
      ∧ removeAsterisks ("Hi ".toList ++ ['*'] ++ "a \n b".toList ++ ['*'] ++ " you".toList)
        = removeAsterisks ("Hi ".toList ++ " you".toList) :=
  ⟨by decide, by decide, by decide,
    removeAsterisks_single_annotation "Hi ".toList "a \n b".toList " you".toList
      (by decide) (by decide) (by decide)⟩

/-- C4: `normalizeCasing` replaces each word that contains both an uppercase and a
lowercase letter by its all-lowercase form, with the first character uppercased
if and only if the first character of the word was an uppercase letter, and
copies every other word and every character outside words. -/
theorem normalizeCasing_spec :
    (∀ x : List Char, normalizeCasing x = casingContract x)
    ∧ normalizeCasing "HeLLo wORLD, ABC abc x_Y1 9Ab".toList
        = "Hello world, ABC abc x_y1 9ab".toList := by
  refine ⟨?_, by decide⟩
  intro x
  rw [normalizeCasing_eq_scan]
  exact (casingContract_eq_scan x.length x (le_refl _)).symm

/-- C5: on `hellooo` the code returns `helo`: the run `ll` is collapsed like the
run `ooo`. -/
theorem normalizeText_hellooo :
    normalizeText "hellooo".toList = "helo".toList
      ∧ normalizeText "hellooo".toList ≠ "hello".toList := by
  decide

/-- C6: on `HeLLo` the code returns `Helo`: the run `LL` is collapsed before the
casing stage sees the word. -/
theorem normalizeText_HeLLo :
    normalizeText "HeLLo".toList = "Helo".toList
      ∧ normalizeText "HeLLo".toList ≠ "Hello".toList := by
  decide

/-- C7, counterexample: `normalizeText` does not return `Hi there` on
`*cough* Hi there`. -/
theorem normalizeText_cough_not_trimmed :
    normalizeText "*cough* Hi there".toList ≠ "Hi there".toList := by
  decide

/-- C7, amended: `normalizeText` returns ` Hi there`, with one leading space, on
`*cough* Hi there`. -/
theorem normalizeText_cough :
    normalizeText "*cough* Hi there".toList = " Hi there".toList := by
  decide

/-- C8, counterexample: `normalizeText` does not return `SOOOO cool, right?` on
`SOOOO coool, *laughs* right?`. -/
theorem normalizeText_laughs_not_claimed :
    normalizeText "SOOOO coool, *laughs* right?".toList ≠ "SOOOO cool, right?".toList := by
  decide

/-- C8, amended: `normalizeText` returns `SO col, right?` on
`SOOOO coool, *laughs* right?`. -/
theorem normalizeText_laughs :
    normalizeText "SOOOO coool, *laughs* right?".toList = "SO col, right?".toList := by
  decide

/-- C9, counterexample: `a  b` (two spaces) holds no asterisk, and `removeAsterisks`
changes it to `a b`. -/
theorem removeAsterisks_no_asterisk_not_identity :
    '*' ∉ "a  b".toList ∧ removeAsterisks "a  b".toList = "a b".toList
      ∧ removeAsterisks "a  b".toList ≠ "a  b".toList := by
  decide

/-- C9, amended: for every input without an asterisk, `removeAsterisks` returns the
input if and only if the input has no two adjacent white space characters. -/
theorem removeAsterisks_no_asterisk (x : List Char) (hx : '*' ∉ x) :
    removeAsterisks x = x
      ↔ List.Chain' (fun c d => ¬ (isspace c = true ∧ isspace d = true)) x := by
  rw [removeAsterisks_eq_scan, scanAsterisk_id x hx]
  constructor
  · intro h
    by_contra hs
    have hlt := length_scanSpaces_lt x hs
    rw [h] at hlt
    exact Nat.lt_irrefl _ hlt
  · exact scanSpaces_id x

/-- C9, witness: `so, what now?` has no asterisk and no two adjacent white space
characters, and is returned unchanged. -/
theorem removeAsterisks_no_asterisk_witness :
    '*' ∉ "so, what now?".toList
      ∧ removeAsterisks "so, what now?".toList = "so, what now?".toList :=
  ⟨by decide, (removeAsterisks_no_asterisk "so, what now?".toList (by decide)).2
    (by simp [List.chain'_cons, isspace])⟩

/-- C10: applying `normalizeRepeatedCharacters` twice gives the same text as
applying it once. -/
theorem normalizeRepeatedCharacters_idempotent (x : List Char) :
    normalizeRepeatedCharacters (normalizeRepeatedCharacters x)
      = normalizeRepeatedCharacters x := by
  rw [normalizeRepeatedCharacters_eq_contract, normalizeRepeatedCharacters_eq_contract]
  exact deleteRepeatedWordChars_idem x none

/-- C11: an input in which no word contains both an uppercase and a lowercase letter
is returned unchanged by `normalizeCasing`. -/
theorem normalizeCasing_no_mixed_word (x : List Char)
    (h : ∀ w, Segment.word w ∈ segments x → isMixedCase w = false) :
    normalizeCasing x = x := by
  rw [normalizeCasing_eq_scan]
  exact scanCasing_id x h

/-- C11, witness: the words of `ABC abc, 12_3` are `ABC`, `abc` and `12_3`, none of
mixed casing. -/
theorem normalizeCasing_no_mixed_word_witness :
    segments "ABC abc, 12_3".toList
        = [Segment.word "ABC".toList, Segment.other ' ', Segment.word "abc".toList,
            Segment.other ',', Segment.other ' ', Segment.word "12_3".toList]
      ∧ normalizeCasing "ABC abc, 12_3".toList = "ABC abc, 12_3".toList := by
  have hseg : segments "ABC abc, 12_3".toList
      = [Segment.word "ABC".toList, Segment.other ' ', Segment.word "abc".toList,
          Segment.other ',', Segment.other ' ', Segment.word "12_3".toList] := by
    simp [segments, isWordChar, isupper, islower, isdigit, List.takeWhile_cons,
      List.dropWhile_cons]
  refine ⟨hseg, normalizeCasing_no_mixed_word _ ?_⟩
  intro w hw
  rw [hseg] at hw
  simp only [List.mem_cons, Segment.word.injEq, List.mem_singleton, reduceCtorEq, false_or,
    or_false, List.not_mem_nil] at hw
  rcases hw with rfl | rfl | rfl <;> decide

/-- C12: the output of `normalizeCasing` has exactly the length of its input. -/
theorem normalizeCasing_length (x : List Char) : (normalizeCasing x).length = x.length := by
  rw [normalizeCasing_eq_scan]
  exact length_scanWord normalizeWordCasing length_normalizeWordCasing x

/-- C13: neither `normalizeRepeatedCharacters` nor `removeAsterisks` returns a text
longer than its input. -/
theorem shrinking_stages_length_le (x : List Char) :
    (normalizeRepeatedCharacters x).length ≤ x.length
      ∧ (removeAsterisks x).length ≤ x.length := by
  constructor
  · rw [normalizeRepeatedCharacters_eq_contract]
    exact length_deleteRepeatedWordChars_le x none
  · rw [removeAsterisks_eq_scan]
    exact le_trans (length_scanSpaces_le _ _ (le_refl _)) (length_scanAsterisk_le x)

/-- C14: the output of `removeAsterisks` is the text left after the removal of the
annotations with every maximal run of two or more white space characters
replaced by one space and every other character copied; it has no two adjacent
white space characters. -/
theorem removeAsterisks_no_adjacent_spaces :
    (∀ x : List Char,
        List.Chain' (fun c d => ¬ (isspace c = true ∧ isspace d = true)) (removeAsterisks x)
        ∧ removeAsterisks x = collapseSpaceRuns (regex_replace x asteriskPattern [])
        ∧ removeAsterisks x = collapseSpaceRuns (outsidePairs (x.splitOn '*')))
      ∧ removeAsterisks "a\tb  c \n\r d *x*  e".toList = "a\tb c d e".toList
      ∧ collapseSpaceRuns "a\tb  c \n\r d".toList = "a\tb c d".toList := by
  refine ⟨fun x => ⟨?_, ?_, ?_⟩, by decide, ?_⟩
  · rw [removeAsterisks_eq_scan]
    exact (scanSpaces_chain _).1
  · rw [removeAsterisks_eq_scan, regex_replace_eq_scan, scanSpaces_eq_collapseSpaceRuns]
  · exact removeAsterisks_eq_contract x
  · rw [← scanSpaces_eq_collapseSpaceRuns]
    decide

/-- C15: an input with exactly one asterisk and no two adjacent white space
characters is returned unchanged by `removeAsterisks`. -/
theorem removeAsterisks_single_asterisk (x : List Char) (hx : x.count '*' = 1)
    (hs : List.Chain' (fun c d => ¬ (isspace c = true ∧ isspace d = true)) x) :
    removeAsterisks x = x := by
  rw [removeAsterisks_eq_scan, scanAsterisk_id_of_count_le_one x (by omega), scanSpaces_id x hs]

/-- C15, witness: `5 * 3 is 15` has one asterisk and single spaces only. -/
theorem removeAsterisks_single_asterisk_witness :
    "5 * 3 is 15".toList.count '*' = 1
      ∧ removeAsterisks "5 * 3 is 15".toList = "5 * 3 is 15".toList :=
  ⟨by decide, removeAsterisks_single_asterisk "5 * 3 is 15".toList (by decide)
    (by simp [List.chain'_cons, isspace])⟩

/-- C16: `normalizeText` returns `aaaa` on `aAaA`: the repetition stage leaves the
word as it is, and the casing stage lowercases it without an uppercase first
letter. -/
theorem normalizeText_aAaA :
    normalizeText "aAaA".toList = "aaaa".toList
      ∧ normalizeRepeatedCharacters "aAaA".toList = "aAaA".toList := by
  decide

/-- C17: `removeAsterisks` consumes the asterisks in pairs from the left: the first
asterisk and the next one go with the text between them, whatever follows; an
asterisk after an even number of asterisks and with none after it stays.  So
the output is the text outside the pairs, with white space collapsed; its
number of asterisks is the number of asterisks of the input modulo 2, at most
one, and it holds no complete annotation. -/
theorem removeAsterisks_count_asterisks :
    (∀ x : List Char,
        (removeAsterisks x).count '*' = x.count '*' % 2
        ∧ (removeAsterisks x).count '*' ≤ 1
        ∧ removeAsterisks x = collapseSpaceRuns (outsidePairs (x.splitOn '*')))
      ∧ (∀ a m b : List Char, '*' ∉ a → '*' ∉ m →
          removeAsterisks (a ++ ['*'] ++ m ++ ['*'] ++ b) = removeAsterisks (a ++ b))
      ∧ (∀ a s : List Char, a.count '*' % 2 = 0 → '*' ∉ s →
          removeAsterisks (a ++ ['*'] ++ s) = removeAsterisks a ++ '*' :: collapseSpaceRuns s)
      ∧ removeAsterisks "a*b*c*d".toList = "ac*d".toList
      ∧ outsidePairs ("a*b*c*d".toList.splitOn '*') = "ac*d".toList := by
  refine ⟨fun x => ?_, removeAsterisks_first_pair, removeAsterisks_last_unpaired,
    by decide, by decide⟩
  have h : (removeAsterisks x).count '*' = x.count '*' % 2 := by
    rw [removeAsterisks_eq_scan, count_scanSpaces, count_scanAsterisk]
  refine ⟨h, ?_, removeAsterisks_eq_contract x⟩
  rw [h]
  omega

/-- C17, witness: in `a*b*c*d` the first two asterisks go with `b`, and the third,
the last of an odd number, stays: the output is `ac*d`. -/
theorem removeAsterisks_count_asterisks_witness :
    removeAsterisks ("a".toList ++ ['*'] ++ "b".toList ++ ['*'] ++ "c*d".toList)
        = removeAsterisks ("a".toList ++ "c*d".toList)
      ∧ removeAsterisks ("a*b*c".toList ++ ['*'] ++ "d".toList)
        = removeAsterisks "a*b*c".toList ++ '*' :: collapseSpaceRuns "d".toList
      ∧ removeAsterisks "a*b*c".toList = "ac".toList
      ∧ removeAsterisks ("a*b*c".toList ++ ['*'] ++ "d".toList) = "ac*d".toList :=
  ⟨removeAsterisks_count_asterisks.2.1 "a".toList "b".toList "c*d".toList
      (by decide) (by decide),
    removeAsterisks_count_asterisks.2.2.1 "a*b*c".toList "d".toList (by decide) (by decide),
    by decide, by decide⟩

/-- C18: `normalizeText` is not idempotent: on `a*x*a` it returns `aa`, and on `aa`
it returns `a`. -/
theorem normalizeText_not_idempotent :
    (∃ x : List Char, normalizeText (normalizeText x) ≠ normalizeText x)
      ∧ normalizeText "a*x*a".toList = "aa".toList
      ∧ normalizeText "aa".toList = "a".toList := by
  refine ⟨⟨"a*x*a".toList, by decide⟩, by decide, by decide⟩

/-- C19: the casing stage leaves every character on its side of the word boundary,
so the words of the output are in the places of the words of the input; and
a word of the output that contains a lowercase letter has no uppercase letter
after its first character. -/
theorem normalizeCasing_words (x : List Char) :
    (normalizeCasing x).map isWordChar = x.map isWordChar
      ∧ ∀ w, Segment.word w ∈ segments (normalizeCasing x) → w.any islower = true →
          ∀ c ∈ w.tail, isupper c = false := by
  rw [normalizeCasing_eq_scan]
  refine ⟨map_isWordChar_scanCasing x, ?_⟩
  intro w hw hl
  rw [segments_scanCasing] at hw
  obtain ⟨seg, _, hseg⟩ := List.mem_map.1 hw
  cases seg with
  | other c => cases hseg
  | word w0 =>
    have hw0 : normalizeWordCasing w0 = w := by
      simpa using hseg
    subst hw0
    exact normalizeWordCasing_tail w0 hl

/-- C19, witness: on `hELLo World_X` the output is `hello World_x`; its word `World_x`
has a lowercase letter, and no uppercase letter after the first character. -/
theorem normalizeCasing_words_witness :
    normalizeCasing "hELLo World_X".toList = "hello World_x".toList
      ∧ Segment.word "World_x".toList ∈ segments (normalizeCasing "hELLo World_X".toList)
      ∧ ∀ c ∈ "orld_x".toList, isupper c = false := by
  have hn : normalizeCasing "hELLo World_X".toList = "hello World_x".toList := by decide
  have hseg : segments "hello World_x".toList
      = [Segment.word "hello".toList, Segment.other ' ', Segment.word "World_x".toList] := by
    simp [segments, isWordChar, isupper, islower, isdigit, List.takeWhile_cons,
      List.dropWhile_cons]
  have hmem : Segment.word "World_x".toList
      ∈ segments (normalizeCasing "hELLo World_X".toList) := by
    rw [hn, hseg]
    simp
  exact ⟨hn, hmem, (normalizeCasing_words "hELLo World_X".toList).2 "World_x".toList hmem
    (by decide)⟩

/-- C20: applying `normalizeCasing` twice gives the same text as applying it once; the
word `Hello` counts as mixed on the second pass and is rewritten to itself. -/
theorem normalizeCasing_idempotent :
    (∀ x : List Char, normalizeCasing (normalizeCasing x) = normalizeCasing x)
      ∧ hasMixedCasing "Hello".toList = true
      ∧ normalizeCasing "Hello".toList = "Hello".toList := by
  refine ⟨?_, by decide, by decide⟩
  intro x
  rw [normalizeCasing_eq_contract (normalizeCasing x), casingContract, normalizeCasing_eq_scan,
    segments_scanCasing, List.map_map]
  rw [← casingContract_eq_scan x.length x (le_refl _), casingContract]
  congr 1
  apply List.map_congr_left
  intro seg _
  cases seg with
  | other c => rfl
  | word w =>
    show casingOfSegment (Segment.word (normalizeWordCasing w)) = casingOfSegment (Segment.word w)
    rw [← normalizeWordCasing_eq, ← normalizeWordCasing_eq, normalizeWordCasing_idem]

end TextNormalizer
